import Mathlib

/-!
The crawl engine of `docs-crawler.js` (docs-to-pdf-crawler).

A shallow embedding of the class `DocsCrawler` (file `docs-crawler.js`): its
constructor, the URL filter `shouldCrawlUrl`, the loop of
`crawlAndGeneratePDFs`, the file-name transform `urlToFileName` and the
ordering step of `mergePDFs`.

JavaScript strings are modelled by `String`, with the string methods written
over the character list.  The built-ins of the JavaScript host that the class
calls (`new URL(..)`, `String.prototype.toLowerCase`,
`String.prototype.localeCompare`) are the fields of a record `Host`; general
statements hold for every host, and `webHost` is a concrete one used at the
worked examples.
-/

namespace DocsCrawler

/-! ## String methods -/

/-- The method `s.startsWith(p)`. -/
def startsWith (s p : String) : Bool := p.data.isPrefixOf s.data

/-- The method `s.endsWith(p)`. -/
def endsWith (s p : String) : Bool := p.data.reverse.isPrefixOf s.data.reverse

/-- Substring search over character lists: does `p` occur in `l`. -/
def occursIn (p : List Char) : List Char → Bool
  | [] => p.isPrefixOf []
  | c :: cs => p.isPrefixOf (c :: cs) || occursIn p cs

/-- The method `s.includes(p)`. -/
def includes (s p : String) : Bool := occursIn p.data s.data

/-! ## The URL record of the host -/

/-- The components of a parsed `URL` object that the crawler can observe. -/
structure Url where
  protocol : String
  hostname : String
  port : String
  pathname : String
  search : String
  hash : String
deriving DecidableEq, Repr

/-- The getter `host`: the host name, followed by `:` and the port when the port is not empty. -/
def Url.host (u : Url) : String :=
  if u.port = "" then u.hostname else u.hostname ++ ":" ++ u.port

/-- The getter `href`: the serialised URL. -/
def Url.href (u : Url) : String :=
  u.protocol ++ "//" ++ u.host ++ u.pathname ++ u.search ++ u.hash

/-- The built-ins of the JavaScript host used by `DocsCrawler`.
`parseUrl s` is `new URL(s)` (`none` when the constructor throws),
`resolveHref href base` is `new URL(href, base).href` (`none` when it throws),
`toLowerCase` and `localeCompare` are the string methods of those names. -/
structure Host where
  parseUrl : String → Option Url
  resolveHref : String → String → Option String
  toLowerCase : String → String
  localeCompare : String → String → Int

/-! ## Configuration: the constructor -/

/-- The `options` object handed to the constructor; an absent option is `none`. -/
structure Options where
  url : String
  depth : Option Int := none
  includeList : Option (List String) := none
  excludeList : Option (List String) := none
  wait : Option Int := none

/-- The configuration fields set by the constructor. -/
structure Config where
  startUrl : String
  maxDepth : Int
  includePatterns : List String
  excludePatterns : List String
  waitTime : Int
  outputDir : String

/-- The expression `x || d` on an optional number: `d` when `x` is absent or zero. -/
def orDefault (x : Option Int) (d : Int) : Int :=
  match x with
  | none => d
  | some v => if v = 0 then d else v

/-- The constructor of `DocsCrawler`, lines 9 to 23.  The directory `outputDir` is
`temp-pdfs` under the directory of the script. -/
def construct (o : Options) : Config :=
  { startUrl := o.url
    maxDepth := orDefault o.depth 5
    includePatterns := o.includeList.getD []
    excludePatterns := o.excludeList.getD []
    waitTime := orDefault o.wait 1000
    outputDir := "temp-pdfs" }

/-- The delay at the end of a loop iteration, lines 221 to 224: `some ms` when
`setTimeout` is awaited for `ms` milliseconds, `none` when no delay is applied. -/
def iterationDelay (cfg : Config) : Option Int :=
  if cfg.waitTime > 0 then some cfg.waitTime else none

/-! ## The filter `shouldCrawlUrl` -/

/-- The list `invalidExtensions` of line 80. -/
def invalidExtensions : List String :=
  [".jpg", ".jpeg", ".png", ".gif", ".pdf", ".zip", ".tar", ".gz"]

/-- The method `shouldCrawlUrl`, lines 54 to 89.  A throwing `new URL` lands in the
`catch` branch, which returns `false`. -/
def shouldCrawlUrl (H : Host) (cfg : Config) (url : String) : Bool :=
  match H.parseUrl url with
  | none => false
  | some urlObj =>
    match H.parseUrl cfg.startUrl with
    | none => false
    | some startUrlObj =>
      if urlObj.hostname ≠ startUrlObj.hostname then false
      else if cfg.includePatterns.length > 0
          && !(cfg.includePatterns.any (fun pattern => includes url pattern)) then false
      else if cfg.excludePatterns.any (fun pattern => includes url pattern) then false
      else if invalidExtensions.any (fun ext => endsWith (H.toLowerCase url) ext) then false
      else true

/-! ## A concrete host for the worked examples

`webHost` follows the URL standard on absolute URLs of the plain shape
`http(s)://host[:port][/path][?query][#fragment]` written in lower-case scheme,
without credentials, dot segments or characters that need escaping, and on
references that are such a URL, start with `/`, `?` or `#`, or carry another
scheme.  It is used only where a statement is evaluated at a concrete input. -/

/-- ASCII lower-casing of a string. -/
def asciiLower (s : String) : String := String.mk (s.data.map Char.toLower)

/-- Split off a leading `http://` or `https://`. -/
def stripScheme (l : List Char) : Option (String × List Char) :=
  if "https://".data.isPrefixOf l then some ("https:", l.drop 8)
  else if "http://".data.isPrefixOf l then some ("http:", l.drop 7)
  else none

/-- The characters that end the authority part of a URL. -/
def isDelim (c : Char) : Bool := c == '/' || c == '?' || c == '#'

/-- Parsing of a plain absolute http(s) URL. -/
def webParse (s : String) : Option Url :=
  match stripScheme s.data with
  | none => none
  | some (proto, rest) =>
    let authority := rest.takeWhile (fun c => !isDelim c)
    let tail := rest.dropWhile (fun c => !isDelim c)
    let hostname := authority.takeWhile (fun c => c != ':')
    let port := (authority.dropWhile (fun c => c != ':')).drop 1
    let pathPart := tail.takeWhile (fun c => c != '?' && c != '#')
    let afterPath := tail.dropWhile (fun c => c != '?' && c != '#')
    if hostname = [] then none
    else some
      { protocol := proto
        hostname := asciiLower (String.mk hostname)
        port :=
          if (proto = "https:" ∧ port = "443".data) ∨ (proto = "http:" ∧ port = "80".data)
          then "" else String.mk port
        pathname := if pathPart = [] then "/" else String.mk pathPart
        search := String.mk (afterPath.takeWhile (fun c => c != '#'))
        hash := String.mk (afterPath.dropWhile (fun c => c != '#')) }

/-- Does the reference start with a scheme (`mailto:`, `tel:`, ...). -/
def hasScheme (l : List Char) : Bool :=
  let name := l.takeWhile (fun c => c.isAlphanum || c == '+' || c == '-' || c == '.')
  (match name with
   | [] => false
   | c :: _ => c.isAlpha) && (l.dropWhile (fun c => c.isAlphanum || c == '+' || c == '-' || c == '.')).head? == some ':'

/-- Resolution of a reference against a base URL, serialised. -/
def webResolve (href base : String) : Option String :=
  match webParse href with
  | some u => some u.href
  | none =>
    match webParse base with
    | none => if hasScheme href.data then some href else none
    | some b =>
      if hasScheme href.data then some href
      else if startsWith href "//" then (webParse (b.protocol ++ href)).map Url.href
      else if startsWith href "/" then
        (webParse (b.protocol ++ "//" ++ b.host ++ href)).map Url.href
      else if startsWith href "?" then
        (webParse (b.protocol ++ "//" ++ b.host ++ b.pathname ++ href)).map Url.href
      else if startsWith href "#" then
        (webParse (b.protocol ++ "//" ++ b.host ++ b.pathname ++ b.search ++ href)).map Url.href
      else if href = "" then some (b.protocol ++ "//" ++ b.host ++ b.pathname ++ b.search)
      else
        let dir := (b.pathname.data.reverse.dropWhile (fun c => c != '/')).reverse
        (webParse (b.protocol ++ "//" ++ b.host ++ String.mk dir ++ href)).map Url.href

/-- Lexicographic comparison of character lists by a key on characters:
`-1`, `0` or `1`. -/
def compareBy (key : Char → Nat) : List Char → List Char → Int
  | [], [] => 0
  | [], _ :: _ => -1
  | _ :: _, [] => 1
  | a :: as, b :: bs =>
    if key a < key b then -1 else if key b < key a then 1 else compareBy key as bs

/-- Collation of two strings that differ only at ASCII letters and digits: the
strings are first compared with letter case ignored; when that gives no
difference, a lower-case letter comes before its upper-case form. -/
def collate (a b : String) : Int :=
  let primary := compareBy (fun c => c.toLower.toNat) a.data b.data
  if primary ≠ 0 then primary
  else compareBy (fun c => if c.isUpper then 1 else 0) a.data b.data

/-- The concrete host of the worked examples. -/
def webHost : Host :=
  { parseUrl := webParse
    resolveHref := webResolve
    toLowerCase := asciiLower
    localeCompare := collate }

/-! ## The file-name transform `urlToFileName` -/

/-- The characters of the class `[a-zA-Z0-9-]`. -/
def isSafeChar (c : Char) : Bool := c.isAlphanum || c == '-'

/-- The replacement `replace(/^https?:\/\//, '')`. -/
def dropScheme (l : List Char) : List Char :=
  if "https://".data.isPrefixOf l then l.drop 8
  else if "http://".data.isPrefixOf l then l.drop 7
  else l

/-- The replacement `replace(/[^a-zA-Z0-9-]/g, '_')`. -/
def replaceUnsafe (l : List Char) : List Char :=
  l.map (fun c => if isSafeChar c then c else '_')

/-- The replacement `replace(/_+/g, '_')`: an underscore followed by an underscore is dropped. -/
def collapse : List Char → List Char
  | [] => []
  | c :: rest => if c = '_' ∧ rest.head? = some '_' then collapse rest else c :: collapse rest

/-- The first alternative of `replace(/^_|_$/g, '')`: one leading underscore is removed. -/
def trimLead : List Char → List Char
  | [] => []
  | c :: rest => if c = '_' then rest else c :: rest

/-- The second alternative of `replace(/^_|_$/g, '')`: one trailing underscore is removed. -/
def trimTrail (l : List Char) : List Char := (trimLead l.reverse).reverse

/-- The value `urlPath` of `urlToFileName`, lines 237 to 240. -/
def sanitize (url : String) : List Char :=
  trimTrail (trimLead (collapse (replaceUnsafe (dropScheme url.data))))

/-- The constant `maxLength` of line 243. -/
def maxLength : Nat := 100

/-- The method `urlToFileName`, lines 235 to 249. -/
def urlToFileName (url : String) : String :=
  let urlPath := sanitize url
  if urlPath.length > maxLength then String.mk (urlPath.take maxLength) ++ ".pdf"
  else String.mk urlPath ++ ".pdf"

/-! ## The crawl loop of `crawlAndGeneratePDFs` -/

/-- An entry of `pdfPaths`. -/
structure Artifact where
  url : String
  path : String
  depth : Nat
deriving DecidableEq, Repr

/-- The mutable state of the loop: the fields `visitedUrls`, `urlsToVisit` and
`pdfPaths`, the local `urlDepthMap`, and two logs that the program does not keep:
`handed`, the URLs passed to `page.goto` in order, and `failed`, the URLs whose
processing ended in the `catch` branch of line 215. -/
structure State where
  visitedUrls : List String
  urlsToVisit : List String
  pdfPaths : List Artifact
  urlDepthMap : List (String × Nat)
  handed : List String
  failed : List String
deriving DecidableEq, Repr

/-- The call `urlDepthMap.set(k, v)`: the entry of `k` is replaced. -/
def mapSet (k : String) (v : Nat) (m : List (String × Nat)) : List (String × Nat) :=
  (k, v) :: m.filter (fun e => e.1 ≠ k)

/-- The call `urlDepthMap.get(k)`; `none` is `undefined`. -/
def mapGet (k : String) : List (String × Nat) → Option Nat
  | [] => none
  | e :: rest => if e.1 = k then some e.2 else mapGet k rest

/-- The state in which the loop starts: `init` has pushed the seed (line 39) and
line 98 has recorded it at depth 0. -/
def initState (cfg : Config) : State :=
  { visitedUrls := []
    urlsToVisit := [cfg.startUrl]
    pdfPaths := []
    urlDepthMap := [(cfg.startUrl, 0)]
    handed := []
    failed := [] }

/-- What the browser does with one page.  `navFailed`: `setViewport`, `goto`,
`waitForSelector` (with its fallback) or `evaluate` throws.  `loaded location hrefs
captured`: the page is at `location` (the value of `window.location.href`), its
anchors carry the `href` attributes `hrefs` (`none` for an anchor without the
attribute), and `captured` tells whether `addStyleTag` and `pdf` both succeed.
This is the outcome of the `try` block of lines 119 to 214; the calls
`browser.newPage()` of line 117 and `page.close()` of line 218, which stand outside
it, are described by `PageVisit`. -/
inductive PageOutcome where
  | navFailed
  | loaded (location : String) (hrefs : List (Option String)) (captured : Bool)
deriving DecidableEq, Repr

/-- The `forEach` over the anchors, lines 142 to 149; `none` when `new URL` throws. -/
def collectLinks (H : Host) (location : String) :
    List (Option String) → List String → Option (List String)
  | [], docLinks => some docLinks
  | none :: rest, docLinks => collectLinks H location rest docLinks
  | some href :: rest, docLinks =>
    if href ≠ "" ∧ startsWith href "#" = false ∧ startsWith href "mailto:" = false then
      match H.resolveHref href location with
      | none => none
      | some absoluteUrl => collectLinks H location rest (docLinks ++ [absoluteUrl])
    else collectLinks H location rest docLinks

/-- The expression `[...new Set(l)]`: first occurrences, in order. -/
def uniq : List String → List String
  | [] => []
  | x :: xs => x :: (uniq xs).filter (fun y => y ≠ x)

/-- The function evaluated in the page, lines 138 to 152. -/
def extractLinks (H : Host) (location : String) (hrefs : List (Option String)) :
    Option (List String) :=
  (collectLinks H location hrefs []).map uniq

/-- The body of `links.forEach`, lines 155 to 162, for one link. -/
def addLink (H : Host) (cfg : Config) (currentDepth : Nat) (s : State) (link : String) : State :=
  if link ∉ s.visitedUrls ∧ link ∉ s.urlsToVisit ∧ shouldCrawlUrl H cfg link = true then
    { s with
      urlsToVisit := s.urlsToVisit ++ [link]
      urlDepthMap := mapSet link (currentDepth + 1) s.urlDepthMap }
  else s

/-- The entry pushed on `pdfPaths` at line 212. -/
def mkArtifact (cfg : Config) (currentUrl : String) (currentDepth : Nat) : Artifact :=
  { url := currentUrl
    path := cfg.outputDir ++ "/" ++ urlToFileName currentUrl
    depth := currentDepth }

/-- The `try` block of lines 119 to 219 for the page `currentUrl`, entered after
line 115 has put it in `visitedUrls`. -/
def processPage (H : Host) (cfg : Config) (outcome : PageOutcome)
    (currentUrl : String) (currentDepth : Nat) (s : State) : State :=
  match outcome with
  | .navFailed => { s with failed := s.failed ++ [currentUrl] }
  | .loaded location hrefs captured =>
    match extractLinks H location hrefs with
    | none => { s with failed := s.failed ++ [currentUrl] }
    | some links =>
      let s1 := links.foldl (addLink H cfg currentDepth) s
      if captured then
        { s1 with pdfPaths := s1.pdfPaths ++ [mkArtifact cfg currentUrl currentDepth] }
      else { s1 with failed := s1.failed ++ [currentUrl] }

/-- One iteration of the `while` loop, lines 101 to 225, in which
`browser.newPage()` and `page.close()` return; a state with an empty queue is left
as it is (the loop has ended).  The iteration in which one of these two calls
throws is in `stepVisit`. -/
def step (H : Host) (cfg : Config) (browser : String → PageOutcome) (s : State) : State :=
  match s.urlsToVisit with
  | [] => s
  | currentUrl :: rest =>
    let currentDepth := (mapGet currentUrl s.urlDepthMap).getD 0
    if currentUrl ∈ s.visitedUrls then { s with urlsToVisit := rest }
    else if (currentDepth : Int) > cfg.maxDepth then { s with urlsToVisit := rest }
    else
      processPage H cfg (browser currentUrl) currentUrl currentDepth
        { s with
          urlsToVisit := rest
          visitedUrls := s.visitedUrls ++ [currentUrl]
          handed := s.handed ++ [currentUrl] }

/-- The state after `n` iterations; `browser k` is the behaviour of the browser
during iteration `k`. -/
def run (H : Host) (cfg : Config) (browser : Nat → String → PageOutcome) :
    Nat → State → State
  | 0, s => s
  | n + 1, s => step H cfg (browser n) (run H cfg browser n s)

/-! ## Invariants of the loop -/

/-- The pending queue has no duplicate, holds no visited URL, and every pending
URL has a recorded depth. -/
def QueueOk (s : State) : Prop :=
  s.urlsToVisit.Nodup ∧ (∀ u ∈ s.urlsToVisit, u ∉ s.visitedUrls) ∧
  (∀ u ∈ s.urlsToVisit, ∃ d, mapGet u s.urlDepthMap = some d)

/-- The invariant of the loop of `crawlAndGeneratePDFs`. -/
def Inv (cfg : Config) (s : State) : Prop :=
  QueueOk s ∧ s.visitedUrls.Nodup ∧ s.handed = s.visitedUrls ∧
  List.Sublist (s.pdfPaths.map Artifact.url) s.visitedUrls ∧
  (∀ u ∈ s.visitedUrls, ∃ d, mapGet u s.urlDepthMap = some d ∧ (d : Int) ≤ cfg.maxDepth) ∧
  (∀ a ∈ s.pdfPaths, mapGet a.url s.urlDepthMap = some a.depth) ∧
  s.pdfPaths.length + s.failed.length = s.visitedUrls.length

/-- Processing of the page ends in the `catch` branch: navigation fails, a link
cannot be resolved inside `evaluate`, or the capture fails. -/
def pageFails (H : Host) (outcome : PageOutcome) : Prop :=
  match outcome with
  | .navFailed => True
  | .loaded location hrefs captured => extractLinks H location hrefs = none ∨ captured = false

/-- What one pass of the link loop leaves unchanged, and what it keeps true. -/
def LinkStep (s s' : State) : Prop :=
  s'.visitedUrls = s.visitedUrls ∧ s'.pdfPaths = s.pdfPaths ∧ s'.handed = s.handed ∧
  s'.failed = s.failed ∧ s.urlsToVisit <+: s'.urlsToVisit ∧
  (∀ k ∈ s.visitedUrls, mapGet k s'.urlDepthMap = mapGet k s.urlDepthMap) ∧
  (QueueOk s → QueueOk s')

/-! ## Worked examples: configurations and browsers -/

/-- The seed of the worked examples. -/
def exampleSeed : String := "https://docs.example.com/"

/-- The options `--url https://docs.example.com/ --depth 1`. -/
def exampleConfig : Config := construct { url := exampleSeed, depth := some 1 }

/-- A site whose seed links to `/guide`, which links to `/deep`. -/
def chainBrowser : Nat → String → PageOutcome := fun _ u =>
  if u = "https://docs.example.com/" then .loaded u [some "/guide"] true
  else if u = "https://docs.example.com/guide" then .loaded u [some "/deep"] true
  else .loaded u [] true

/-- A site whose seed links to four pages without links; loading `/b` fails. -/
def fiveBrowser : Nat → String → PageOutcome := fun _ u =>
  if u = "https://docs.example.com/" then .loaded u [some "/a", some "/b", some "/c", some "/d"] true
  else if u = "https://docs.example.com/b" then .navFailed
  else .loaded u [] true

/-- The options of the scenario `include=["/api/"]`, `exclude=["/api/internal/"]`. -/
def apiConfig : Config :=
  construct { url := exampleSeed, includeList := some ["/api/"],
              excludeList := some ["/api/internal/"] }

/-- A site whose seed carries the anchors `/guide`, `/guide#anchor` and
`https://other.com/x`. -/
def scenarioBrowser : Nat → String → PageOutcome := fun _ u =>
  if u = "https://docs.example.com/" then
    .loaded u [some "/guide", some "/guide#anchor", some "https://other.com/x"] true
  else .loaded u [] true

/-! ## The ordering step of `mergePDFs` -/

/-- The comparator handed to `sort`, lines 257 to 260. -/
def compareArtifacts (H : Host) (a b : Artifact) : Int :=
  if a.depth ≠ b.depth then (a.depth : Int) - (b.depth : Int)
  else H.localeCompare a.url b.url

/-- The call `this.pdfPaths.sort(..)` of line 257.  `Array.prototype.sort` is a
stable sort: an element is moved before another one only when the comparator
orders them so.  It is modelled by insertion sort, which is stable. -/
def sortArtifacts (H : Host) (pdfPaths : List Artifact) : List Artifact :=
  pdfPaths.insertionSort (fun a b => compareArtifacts H a b ≤ 0)

/-- The order of the sorted list, spelled out: smaller depth first and, at equal
depth, the URL that `localeCompare` does not put after the other. -/
def depthThenCollation (H : Host) (a b : Artifact) : Prop :=
  a.depth < b.depth ∨ (a.depth = b.depth ∧ H.localeCompare a.url b.url ≤ 0)

/-- The order of the claim, spelled out: smaller depth first and, at equal depth,
the URL that is not greater in the lexicographic order of strings. -/
def depthThenLexUrl (a b : Artifact) : Prop :=
  a.depth < b.depth ∨
    (a.depth = b.depth ∧ compareBy (fun c => c.toNat) a.url.data b.url.data ≤ 0)

/-- On the strings `urls`, `localeCompare` is a total order: any two are
comparable, the comparison is transitive, and two strings that it does not
separate are equal. -/
@[reducible] def CollatesTotally (H : Host) (urls : List String) : Prop :=
  (∀ a ∈ urls, ∀ b ∈ urls, H.localeCompare a b ≤ 0 ∨ H.localeCompare b a ≤ 0) ∧
  (∀ a ∈ urls, ∀ b ∈ urls, ∀ c ∈ urls,
      H.localeCompare a b ≤ 0 → H.localeCompare b c ≤ 0 → H.localeCompare a c ≤ 0) ∧
  (∀ a ∈ urls, ∀ b ∈ urls, H.localeCompare a b ≤ 0 → H.localeCompare b a ≤ 0 → a = b)

/-- An entry of `pdfPaths` for the URL `url` at depth `depth`. -/
def artifactAt (url : String) (depth : Nat) : Artifact :=
  mkArtifact exampleConfig url depth

/-! ## Runs of file-name characters -/

/-- The pieces of a character list between the characters outside
`[a-zA-Z0-9-]`, empty pieces included. -/
def segments : List Char → List (List Char)
  | [] => [[]]
  | c :: cs =>
    if isSafeChar c then
      match segments cs with
      | [] => [[c]]
      | piece :: pieces => (c :: piece) :: pieces
    else [] :: segments cs

/-- The maximal runs of characters of `[a-zA-Z0-9-]` in a character list, in order. -/
def safeRuns (l : List Char) : List (List Char) :=
  (segments l).filter (fun piece => piece ≠ [])

/-- The runs joined by single underscores. -/
def joinRuns : List (List Char) → List Char
  | [] => []
  | [r] => r
  | r :: r' :: rs => r ++ '_' :: joinRuns (r' :: rs)

/-- A site whose seed links to `/guide` and to `/guide/`. -/
def slashBrowser : Nat → String → PageOutcome := fun _ u =>
  if u = "https://docs.example.com/" then .loaded u [some "/guide", some "/guide/"] true
  else .loaded u [] true

/-! ## The measure of the loop -/

/-- The recorded depth of a URL, as line 103 reads it. -/
def depthOf (s : State) (u : String) : Nat := (mapGet u s.urlDepthMap).getD 0

/-- The number of levels left below a target of depth `d`: `maxDepth + 1 - d`, and
0 when the target lies deeper. -/
def levelsLeft (cfg : Config) (d : Nat) : Nat := (cfg.maxDepth + 1 - (d : Int)).toNat

/-- The levels left of the pending targets, as a multiset. -/
def queueLevels (cfg : Config) (s : State) : Multiset Nat :=
  ((s.urlsToVisit.map (fun u => levelsLeft cfg (depthOf s u)) : List Nat) : Multiset Nat)

/-- What the link loop of a page of depth `d` does to the queue: it appends URLs,
each recorded at depth `d + 1`, and keeps the recorded depth of the URLs that were
pending. -/
def Grows (d : Nat) (s s' : State) : Prop :=
  ∃ added : List String, s'.urlsToVisit = s.urlsToVisit ++ added ∧
    (∀ k ∈ s.urlsToVisit, mapGet k s'.urlDepthMap = mapGet k s.urlDepthMap) ∧
    (∀ k ∈ added, mapGet k s'.urlDepthMap = some (d + 1))

/-- An unbounded site: every page links to two pages below it that no other page
links to. -/
def endlessBrowser : Nat → String → PageOutcome := fun _ u =>
  .loaded u [some (u ++ "a/"), some (u ++ "b/")] true

/-! ## The loop with its exit by exception -/

/-- What the browser does with one page, the calls outside the `try` block
included.  `opened` tells whether `browser.newPage()` of line 117 returns (it
throws otherwise), `outcome` is what happens in the `try` block, and `closed`
tells whether `page.close()` of line 218, in the `finally` block, returns. -/
structure PageVisit where
  opened : Bool
  outcome : PageOutcome
  closed : Bool
deriving DecidableEq, Repr

/-- The loop and its exit by exception: `aborted` tells that an exception has left
the `while` loop; the `finally` of line 226 then closes the browser and
`crawlAndGeneratePDFs` rejects, with `state` as the loop left it. -/
structure Crawl where
  state : State
  aborted : Bool
deriving DecidableEq, Repr

/-- The start of the loop: the state left by `init`, no exception thrown. -/
def initCrawl (cfg : Config) : Crawl := { state := initState cfg, aborted := false }

/-- One iteration of the `while` loop, lines 101 to 225, with the exceptions that
no `catch` handles: a throwing `browser.newPage()` leaves the loop after line 115
has marked the URL visited, and a throwing `page.close()` leaves it after the
`try` block and its `catch` have run.  After an exception no iteration runs. -/
def stepVisit (H : Host) (cfg : Config) (visit : String → PageVisit) (c : Crawl) : Crawl :=
  if c.aborted then c
  else
    match c.state.urlsToVisit with
    | [] => c
    | currentUrl :: rest =>
      let currentDepth := (mapGet currentUrl c.state.urlDepthMap).getD 0
      if currentUrl ∈ c.state.visitedUrls then
        { c with state := { c.state with urlsToVisit := rest } }
      else if (currentDepth : Int) > cfg.maxDepth then
        { c with state := { c.state with urlsToVisit := rest } }
      else if (visit currentUrl).opened = false then
        { state :=
            { c.state with
              urlsToVisit := rest
              visitedUrls := c.state.visitedUrls ++ [currentUrl] }
          aborted := true }
      else
        { state :=
            processPage H cfg (visit currentUrl).outcome currentUrl currentDepth
              { c.state with
                urlsToVisit := rest
                visitedUrls := c.state.visitedUrls ++ [currentUrl]
                handed := c.state.handed ++ [currentUrl] }
          aborted := !(visit currentUrl).closed }

/-- The loop after `n` iterations; `visit k` is the behaviour of the browser during
iteration `k`. -/
def runVisit (H : Host) (cfg : Config) (visit : Nat → String → PageVisit) :
    Nat → Crawl → Crawl
  | 0, c => c
  | n + 1, c => stepVisit H cfg (visit n) (runVisit H cfg visit n c)

/-- A visit in which the page is opened and closed without an exception. -/
def quietVisit (o : PageOutcome) : PageVisit := { opened := true, outcome := o, closed := true }

/-- The site of `fiveBrowser`, every page opened and closed without an exception. -/
def fiveVisits : Nat → String → PageVisit := fun k u => quietVisit (fiveBrowser k u)

/-- A site whose seed links to `/a` and `/b`; loading `/a` fails and closing its
page throws. -/
def brokenCloseVisits : Nat → String → PageVisit := fun _ u =>
  if u = "https://docs.example.com/" then quietVisit (.loaded u [some "/a", some "/b"] true)
  else if u = "https://docs.example.com/a" then
    { opened := true, outcome := .navFailed, closed := false }
  else quietVisit (.loaded u [] true)

/-- A site whose seed links to `/a` and `/b`; no page can be opened for `/a`. -/
def brokenOpenVisits : Nat → String → PageVisit := fun _ u =>
  if u = "https://docs.example.com/" then quietVisit (.loaded u [some "/a", some "/b"] true)
  else if u = "https://docs.example.com/a" then
    { opened := false, outcome := .navFailed, closed := true }
  else quietVisit (.loaded u [] true)

/-! # Theorems -/

/-! ## Lemmas on the depth map and the link loop -/

theorem mapGet_filter_ne (k k' : String) (h : k' ≠ k) (m : List (String × Nat)) :
    mapGet k' (m.filter (fun e => e.1 ≠ k)) = mapGet k' m := by
  induction m with
  | nil => rfl
  | cons e rest ih =>
    by_cases he : e.1 = k
    · have hne : e.1 ≠ k' := fun h' => h (h'.symm.trans he)
      rw [List.filter_cons_of_neg (by simpa using he), ih]
      simp [mapGet, hne]
    · rw [List.filter_cons_of_pos (by simpa using he)]
      simp only [mapGet]
      rw [ih]

theorem mapGet_mapSet_self (k : String) (v : Nat) (m : List (String × Nat)) :
    mapGet k (mapSet k v m) = some v := by
  simp [mapSet, mapGet]

theorem mapGet_mapSet_ne (k k' : String) (v : Nat) (m : List (String × Nat)) (h : k' ≠ k) :
    mapGet k' (mapSet k v m) = mapGet k' m := by
  have hk : k ≠ k' := fun h' => h h'.symm
  simp only [mapSet, mapGet, hk, if_false]
  exact mapGet_filter_ne k k' h m

theorem linkStep_refl (s : State) : LinkStep s s :=
  ⟨rfl, rfl, rfl, rfl, List.prefix_refl _, fun _ _ => rfl, id⟩

theorem linkStep_trans {a b c : State} (h1 : LinkStep a b) (h2 : LinkStep b c) : LinkStep a c := by
  obtain ⟨v1, p1, g1, f1, q1, m1, k1⟩ := h1
  obtain ⟨v2, p2, g2, f2, q2, m2, k2⟩ := h2
  refine ⟨v2.trans v1, p2.trans p1, g2.trans g1, f2.trans f1, q1.trans q2, ?_, fun h => k2 (k1 h)⟩
  intro k hk
  rw [m2 k (by rw [v1]; exact hk), m1 k hk]

theorem addLink_linkStep (H : Host) (cfg : Config) (d : Nat) (s : State) (link : String) :
    LinkStep s (addLink H cfg d s link) := by
  unfold addLink
  split
  · rename_i h
    obtain ⟨hv, hq, _⟩ := h
    refine ⟨rfl, rfl, rfl, rfl, List.prefix_append _ _, ?_, ?_⟩
    · intro k hk
      exact mapGet_mapSet_ne link k (d + 1) _ (fun h' => hv (h' ▸ hk))
    · rintro ⟨nd, fresh, rec⟩
      refine ⟨?_, ?_, ?_⟩
      · simp only
        rw [List.nodup_append]
        refine ⟨nd, List.nodup_singleton _, ?_⟩
        intro a ha hb
        rw [List.mem_singleton] at hb
        exact hq (hb ▸ ha)
      · intro u hu
        simp only [List.mem_append, List.mem_singleton] at hu
        rcases hu with hu | hu
        · exact fresh u hu
        · rw [hu]; exact hv
      · intro u hu
        simp only [List.mem_append, List.mem_singleton] at hu
        by_cases hul : u = link
        · exact ⟨d + 1, by rw [hul]; exact mapGet_mapSet_self _ _ _⟩
        · rcases hu with hu | hu
          · obtain ⟨d', hd'⟩ := rec u hu
            exact ⟨d', by simp only; rw [mapGet_mapSet_ne _ _ _ _ hul]; exact hd'⟩
          · exact absurd hu hul
  · exact linkStep_refl s

theorem foldl_addLink_linkStep (H : Host) (cfg : Config) (d : Nat) (links : List String) :
    ∀ s : State, LinkStep s (links.foldl (addLink H cfg d) s) := by
  induction links with
  | nil => intro s; exact linkStep_refl s
  | cons l rest ih =>
    intro s
    exact linkStep_trans (addLink_linkStep H cfg d s l) (ih _)

/-! ## One page, one iteration -/

theorem processPage_spec (H : Host) (cfg : Config) (o : PageOutcome) (u : String) (d : Nat)
    (s : State) :
    (processPage H cfg o u d s).visitedUrls = s.visitedUrls ∧
    (processPage H cfg o u d s).handed = s.handed ∧
    s.urlsToVisit <+: (processPage H cfg o u d s).urlsToVisit ∧
    (∀ k ∈ s.visitedUrls, mapGet k (processPage H cfg o u d s).urlDepthMap = mapGet k s.urlDepthMap) ∧
    (QueueOk s → QueueOk (processPage H cfg o u d s)) ∧
    ((¬ pageFails H o ∧ (processPage H cfg o u d s).pdfPaths = s.pdfPaths ++ [mkArtifact cfg u d] ∧
        (processPage H cfg o u d s).failed = s.failed) ∨
     (pageFails H o ∧ (processPage H cfg o u d s).pdfPaths = s.pdfPaths ∧
        (processPage H cfg o u d s).failed = s.failed ++ [u])) := by
  cases o with
  | navFailed =>
    exact ⟨rfl, rfl, List.prefix_refl _, fun _ _ => rfl, id, Or.inr ⟨trivial, rfl, rfl⟩⟩
  | loaded location hrefs captured =>
    cases hx : extractLinks H location hrefs with
    | none =>
      simp [processPage, hx, pageFails]
      exact fun h => h
    | some links =>
      obtain ⟨hv, hp, hh, hf, hq, hm, hk⟩ := foldl_addLink_linkStep H cfg d links s
      cases captured with
      | true =>
        simp only [processPage, hx, pageFails, if_true]
        exact ⟨hv, hh, hq, hm, hk, Or.inl ⟨by simp, by rw [hp], hf⟩⟩
      | false =>
        simp only [processPage, hx, pageFails]
        exact ⟨hv, hh, hq, hm, hk, Or.inr ⟨Or.inr trivial, hp, by simp [hf]⟩⟩

theorem queueOk_tail {s : State} {u : String} {rest : List String}
    (hq : s.urlsToVisit = u :: rest) (h : QueueOk s) :
    QueueOk { s with urlsToVisit := rest } := by
  obtain ⟨nd, fresh, rec⟩ := h
  rw [hq] at nd fresh rec
  exact ⟨(List.nodup_cons.mp nd).2, fun v hv => fresh v (List.mem_cons_of_mem _ hv),
    fun v hv => rec v (List.mem_cons_of_mem _ hv)⟩

theorem queueOk_mark {s : State} {u : String} {rest : List String}
    (hq : s.urlsToVisit = u :: rest) (h : QueueOk s) :
    QueueOk { s with urlsToVisit := rest, visitedUrls := s.visitedUrls ++ [u],
                     handed := s.handed ++ [u] } := by
  obtain ⟨nd, fresh, rec⟩ := h
  rw [hq] at nd fresh rec
  refine ⟨(List.nodup_cons.mp nd).2, ?_, fun v hv => rec v (List.mem_cons_of_mem _ hv)⟩
  intro v hv hmem
  simp only [List.mem_append, List.mem_singleton] at hmem
  rcases hmem with hmem | hmem
  · exact fresh v (List.mem_cons_of_mem _ hv) hmem
  · exact (List.nodup_cons.mp nd).1 (hmem ▸ hv)

theorem step_inv (H : Host) (cfg : Config) (browser : String → PageOutcome) (s : State)
    (h : Inv cfg s) : Inv cfg (step H cfg browser s) := by
  obtain ⟨hQ, hnd, hh, hsub, hdep, hrec, hcnt⟩ := h
  unfold step
  split
  · exact ⟨hQ, hnd, hh, hsub, hdep, hrec, hcnt⟩
  · rename_i u rest hq
    simp only
    split
    · exact ⟨queueOk_tail hq hQ, hnd, hh, hsub, hdep, hrec, hcnt⟩
    · rename_i hvis
      split
      · exact ⟨queueOk_tail hq hQ, hnd, hh, hsub, hdep, hrec, hcnt⟩
      · rename_i hle
        obtain ⟨d, hd⟩ := hQ.2.2 u (by rw [hq]; exact List.mem_cons_self _ _)
        have hdle : (d : Int) ≤ cfg.maxDepth := by
          rw [hd] at hle
          simpa using hle
        rw [hd]
        simp only [Option.getD_some]
        obtain ⟨pv, ph, _, pm, pk, pr⟩ := processPage_spec H cfg (browser u) u d
          { s with urlsToVisit := rest, visitedUrls := s.visitedUrls ++ [u],
                   handed := s.handed ++ [u] }
        have hmapu : ∀ k ∈ s.visitedUrls ++ [u], ∃ d', mapGet k
            (processPage H cfg (browser u) u d
              { s with urlsToVisit := rest, visitedUrls := s.visitedUrls ++ [u],
                       handed := s.handed ++ [u] }).urlDepthMap = some d' ∧
              (d' : Int) ≤ cfg.maxDepth := by
          intro k hk
          rw [pm k hk]
          simp only [List.mem_append, List.mem_singleton] at hk
          rcases hk with hk | hk
          · exact hdep k hk
          · exact ⟨d, by rw [hk]; exact hd, hdle⟩
        refine ⟨pk (queueOk_mark hq hQ), ?_, ?_, ?_, ?_, ?_, ?_⟩
        · rw [pv]
          simp only
          rw [List.nodup_append]
          refine ⟨hnd, List.nodup_singleton _, ?_⟩
          intro a ha hb
          rw [List.mem_singleton] at hb
          exact hvis (hb ▸ ha)
        · rw [pv, ph]; simp only; rw [hh]
        · rw [pv]
          rcases pr with ⟨_, pp, _⟩ | ⟨_, pp, _⟩
          · rw [pp]
            simp only [List.map_append, List.map_cons, List.map_nil, mkArtifact]
            exact List.Sublist.append hsub (List.Sublist.refl _)
          · rw [pp]
            exact hsub.trans (List.sublist_append_left _ _)
        · rw [pv]; exact hmapu
        · intro a ha
          have hold : ∀ a ∈ s.pdfPaths, mapGet a.url
              (processPage H cfg (browser u) u d
                { s with urlsToVisit := rest, visitedUrls := s.visitedUrls ++ [u],
                         handed := s.handed ++ [u] }).urlDepthMap = some a.depth := by
            intro a ha
            have hmem : a.url ∈ s.visitedUrls := hsub.subset (List.mem_map_of_mem _ ha)
            rw [pm a.url (List.mem_append_left _ hmem)]
            exact hrec a ha
          rcases pr with ⟨_, pp, _⟩ | ⟨_, pp, _⟩
          · rw [pp] at ha
            simp only [List.mem_append, List.mem_singleton] at ha
            rcases ha with ha | ha
            · exact hold a ha
            · rw [ha]
              simp only [mkArtifact]
              rw [pm u (List.mem_append_right _ (List.mem_singleton_self _))]
              exact hd
          · rw [pp] at ha
            exact hold a ha
        · rw [pv]
          rcases pr with ⟨_, pp, pf⟩ | ⟨_, pp, pf⟩
          · rw [pp, pf]; simp only [List.length_append, List.length_singleton]; omega
          · rw [pp, pf]; simp only [List.length_append, List.length_singleton]; omega

theorem init_inv (cfg : Config) : Inv cfg (initState cfg) := by
  refine ⟨⟨List.nodup_singleton _, ?_, ?_⟩, List.nodup_nil, rfl, List.Sublist.refl _, ?_, ?_, rfl⟩
  · intro u _ hu; exact absurd hu (List.not_mem_nil _)
  · intro u hu
    simp only [initState, List.mem_singleton] at hu
    exact ⟨0, by simp [initState, mapGet, hu]⟩
  · intro u hu; exact absurd hu (List.not_mem_nil _)
  · intro a ha; exact absurd ha (List.not_mem_nil _)

theorem run_inv (H : Host) (cfg : Config) (browser : Nat → String → PageOutcome) (n : Nat) :
    Inv cfg (run H cfg browser n (initState cfg)) := by
  induction n with
  | zero => exact init_inv cfg
  | succ n ih => exact step_inv H cfg (browser n) _ ih

/-! ## The loop: no revisit, depth bound, failure isolation -/

/-- Claim C1 (no revisit).  After any number of iterations of the loop started
from the state left by `init`, for every host, configuration and browser
behaviour: the URLs handed to the browser are pairwise distinct, the pending
queue has no duplicate and holds no visited URL, and `pdfPaths` has no two
entries with the same URL. -/
theorem no_revisit (H : Host) (cfg : Config) (browser : Nat → String → PageOutcome) (n : Nat) :
    (run H cfg browser n (initState cfg)).handed.Nodup ∧
    (run H cfg browser n (initState cfg)).urlsToVisit.Nodup ∧
    (∀ u ∈ (run H cfg browser n (initState cfg)).urlsToVisit,
        u ∉ (run H cfg browser n (initState cfg)).visitedUrls) ∧
    ((run H cfg browser n (initState cfg)).pdfPaths.map Artifact.url).Nodup := by
  obtain ⟨⟨nd, fresh, _⟩, hnd, hh, hsub, _, _, _⟩ := run_inv H cfg browser n
  exact ⟨hh ▸ hnd, nd, fresh, hsub.nodup hnd⟩

/-- Claim C2 (depth bound).  After any number of iterations, every visited URL has
a recorded depth that is at most `maxDepth`, and every entry of `pdfPaths` carries
the recorded depth of its URL, at most `maxDepth`; and in any state, an iteration
whose dequeued target has a recorded depth above `maxDepth` only removes the
target from the queue: nothing is marked visited or handed to the browser, and the
next iteration takes the next target. -/
theorem depth_bound (H : Host) (cfg : Config) (browser : Nat → String → PageOutcome) (n : Nat) :
    (∀ u ∈ (run H cfg browser n (initState cfg)).visitedUrls,
        ∃ d, mapGet u (run H cfg browser n (initState cfg)).urlDepthMap = some d ∧
          (d : Int) ≤ cfg.maxDepth) ∧
    (∀ a ∈ (run H cfg browser n (initState cfg)).pdfPaths,
        mapGet a.url (run H cfg browser n (initState cfg)).urlDepthMap = some a.depth ∧
          (a.depth : Int) ≤ cfg.maxDepth) ∧
    (∀ (t : State) (page : String → PageOutcome) (u : String) (rest : List String),
        t.urlsToVisit = u :: rest →
        (((mapGet u t.urlDepthMap).getD 0 : Nat) : Int) > cfg.maxDepth →
        step H cfg page t = { t with urlsToVisit := rest }) := by
  obtain ⟨_, _, _, hsub, hdep, hrec, _⟩ := run_inv H cfg browser n
  refine ⟨hdep, ?_, ?_⟩
  · intro a ha
    refine ⟨hrec a ha, ?_⟩
    obtain ⟨d, hd, hle⟩ := hdep a.url (hsub.subset (List.mem_map_of_mem _ ha))
    rw [hrec a ha] at hd
    cases hd
    exact hle
  · intro t page u rest hq hgt
    unfold step
    rw [hq]
    simp only
    by_cases hvis : u ∈ t.visitedUrls
    · rw [if_pos hvis]
    · rw [if_neg hvis, if_pos hgt]

/-- Witness of C2: with `maxDepth = 1`, the page `/deep` found at depth 2 is dropped. -/
theorem depth_bound_witness :
    (run webHost exampleConfig chainBrowser 2 (initState exampleConfig)).urlsToVisit
      = ["https://docs.example.com/deep"] ∧
    step webHost exampleConfig (chainBrowser 2)
        (run webHost exampleConfig chainBrowser 2 (initState exampleConfig))
      = { run webHost exampleConfig chainBrowser 2 (initState exampleConfig) with
          urlsToVisit := [] } :=
  ⟨by decide,
   (depth_bound webHost exampleConfig chainBrowser 2).2.2 _ (chainBrowser 2)
     "https://docs.example.com/deep" [] (by decide) (by decide)⟩

/-- Failure isolation for the iterations of `step`, in which every page is opened
and closed without an exception.  After any number of iterations the number of
entries of `pdfPaths` is the number of visited URLs minus the number of failed
pages.  When the page of the dequeued target `u` fails, the iteration leaves `u`
in `visitedUrls`, appends nothing to `pdfPaths`, and keeps the remaining targets
at the head of the queue in their order; a page whose capture fails leaves the
same queue, visited set and depth map as the same page captured with success. -/
theorem failure_isolation (H : Host) (cfg : Config) (browser : Nat → String → PageOutcome)
    (n : Nat) :
    (run H cfg browser n (initState cfg)).pdfPaths.length =
      (run H cfg browser n (initState cfg)).visitedUrls.length -
        (run H cfg browser n (initState cfg)).failed.length ∧
    (run H cfg browser n (initState cfg)).failed.length ≤
      (run H cfg browser n (initState cfg)).visitedUrls.length ∧
    (∀ (u : String) (rest : List String),
        (run H cfg browser n (initState cfg)).urlsToVisit = u :: rest →
        ¬ ((((mapGet u (run H cfg browser n (initState cfg)).urlDepthMap).getD 0 : Nat) : Int)
            > cfg.maxDepth) →
        pageFails H (browser n u) →
        (run H cfg browser (n + 1) (initState cfg)).visitedUrls =
          (run H cfg browser n (initState cfg)).visitedUrls ++ [u] ∧
        (run H cfg browser (n + 1) (initState cfg)).pdfPaths =
          (run H cfg browser n (initState cfg)).pdfPaths ∧
        (run H cfg browser (n + 1) (initState cfg)).failed =
          (run H cfg browser n (initState cfg)).failed ++ [u] ∧
        rest <+: (run H cfg browser (n + 1) (initState cfg)).urlsToVisit) ∧
    (∀ (s : State) (u : String) (d : Nat) (location : String) (hrefs : List (Option String)),
        (processPage H cfg (.loaded location hrefs false) u d s).urlsToVisit =
          (processPage H cfg (.loaded location hrefs true) u d s).urlsToVisit ∧
        (processPage H cfg (.loaded location hrefs false) u d s).visitedUrls =
          (processPage H cfg (.loaded location hrefs true) u d s).visitedUrls ∧
        (processPage H cfg (.loaded location hrefs false) u d s).urlDepthMap =
          (processPage H cfg (.loaded location hrefs true) u d s).urlDepthMap) := by
  obtain ⟨hQ, _, _, _, _, _, hcnt⟩ := run_inv H cfg browser n
  refine ⟨by omega, by omega, ?_, ?_⟩
  swap
  · intro s u d location hrefs
    cases hx : extractLinks H location hrefs with
    | none => simp [processPage, hx]
    | some links => simp [processPage, hx]
  intro u rest hq hle hfail
  have hvis : u ∉ (run H cfg browser n (initState cfg)).visitedUrls :=
    hQ.2.1 u (by rw [hq]; exact List.mem_cons_self _ _)
  obtain ⟨pv, _, pq, _, _, pr⟩ := processPage_spec H cfg (browser n u) u
    ((mapGet u (run H cfg browser n (initState cfg)).urlDepthMap).getD 0)
    { run H cfg browser n (initState cfg) with
      urlsToVisit := rest
      visitedUrls := (run H cfg browser n (initState cfg)).visitedUrls ++ [u]
      handed := (run H cfg browser n (initState cfg)).handed ++ [u] }
  have hstep : run H cfg browser (n + 1) (initState cfg) =
      processPage H cfg (browser n u) u
        ((mapGet u (run H cfg browser n (initState cfg)).urlDepthMap).getD 0)
        { run H cfg browser n (initState cfg) with
          urlsToVisit := rest
          visitedUrls := (run H cfg browser n (initState cfg)).visitedUrls ++ [u]
          handed := (run H cfg browser n (initState cfg)).handed ++ [u] } := by
    show step H cfg (browser n) (run H cfg browser n (initState cfg)) = _
    unfold step
    rw [hq]
    simp only
    rw [if_neg hvis, if_neg hle]
  rw [hstep]
  rcases pr with ⟨hno, _, _⟩ | ⟨_, pp, pf⟩
  · exact absurd hfail hno
  · exact ⟨pv, pp, pf, pq⟩

theorem stepVisit_quiet (H : Host) (cfg : Config) (visit : String → PageVisit)
    (hopen : ∀ u, (visit u).opened = true) (hclose : ∀ u, (visit u).closed = true)
    (s : State) :
    stepVisit H cfg visit { state := s, aborted := false } =
      { state := step H cfg (fun u => (visit u).outcome) s, aborted := false } := by
  unfold stepVisit step
  simp only [Bool.false_eq_true, if_false]
  cases hq : s.urlsToVisit with
  | nil => simp only
  | cons u rest =>
    simp only
    by_cases hvis : u ∈ s.visitedUrls
    · rw [if_pos hvis, if_pos hvis]
    · rw [if_neg hvis, if_neg hvis]
      by_cases hgt : (((mapGet u s.urlDepthMap).getD 0 : Nat) : Int) > cfg.maxDepth
      · rw [if_pos hgt, if_pos hgt]
      · rw [if_neg hgt, if_neg hgt, hopen u, hclose u]
        simp

theorem runVisit_quiet (H : Host) (cfg : Config) (visit : Nat → String → PageVisit)
    (hopen : ∀ k u, (visit k u).opened = true) (hclose : ∀ k u, (visit k u).closed = true)
    (s : State) (n : Nat) :
    runVisit H cfg visit n { state := s, aborted := false } =
      { state := run H cfg (fun k u => (visit k u).outcome) n s, aborted := false } := by
  induction n with
  | zero => rfl
  | succ n ih =>
    show stepVisit H cfg (visit n) (runVisit H cfg visit n { state := s, aborted := false }) = _
    rw [ih, stepVisit_quiet H cfg (visit n) (hopen n) (hclose n)]
    rfl

/-- Claim C3, as amended (failure isolation when pages open and close).  For every
browser behaviour in which `browser.newPage()` and `page.close()` never throw, the
loop started from the state left by `init` is never left by an exception, and
after any number of iterations the number of entries of `pdfPaths` is the number
of visited URLs minus the number of failed pages.  When the page of the dequeued
target `u` fails (navigation, selector wait, link extraction or capture throws),
the iteration leaves `u` in `visitedUrls`, appends nothing to `pdfPaths`, keeps
the remaining targets at the head of the queue in their order and the loop goes
on; a page whose capture fails leaves the same queue, visited set and depth map as
the same page captured with success. -/
theorem page_failure_isolation (H : Host) (cfg : Config) (visit : Nat → String → PageVisit)
    (hopen : ∀ k u, (visit k u).opened = true) (hclose : ∀ k u, (visit k u).closed = true)
    (n : Nat) :
    (runVisit H cfg visit n (initCrawl cfg)).aborted = false ∧
    (runVisit H cfg visit n (initCrawl cfg)).state.pdfPaths.length =
      (runVisit H cfg visit n (initCrawl cfg)).state.visitedUrls.length -
        (runVisit H cfg visit n (initCrawl cfg)).state.failed.length ∧
    (runVisit H cfg visit n (initCrawl cfg)).state.failed.length ≤
      (runVisit H cfg visit n (initCrawl cfg)).state.visitedUrls.length ∧
    (∀ (u : String) (rest : List String),
        (runVisit H cfg visit n (initCrawl cfg)).state.urlsToVisit = u :: rest →
        ¬ ((((mapGet u (runVisit H cfg visit n (initCrawl cfg)).state.urlDepthMap).getD 0 : Nat)
            : Int) > cfg.maxDepth) →
        pageFails H (visit n u).outcome →
        (runVisit H cfg visit (n + 1) (initCrawl cfg)).aborted = false ∧
        (runVisit H cfg visit (n + 1) (initCrawl cfg)).state.visitedUrls =
          (runVisit H cfg visit n (initCrawl cfg)).state.visitedUrls ++ [u] ∧
        (runVisit H cfg visit (n + 1) (initCrawl cfg)).state.pdfPaths =
          (runVisit H cfg visit n (initCrawl cfg)).state.pdfPaths ∧
        (runVisit H cfg visit (n + 1) (initCrawl cfg)).state.failed =
          (runVisit H cfg visit n (initCrawl cfg)).state.failed ++ [u] ∧
        rest <+: (runVisit H cfg visit (n + 1) (initCrawl cfg)).state.urlsToVisit) ∧
    (∀ (s : State) (u : String) (d : Nat) (location : String) (hrefs : List (Option String)),
        (processPage H cfg (.loaded location hrefs false) u d s).urlsToVisit =
          (processPage H cfg (.loaded location hrefs true) u d s).urlsToVisit ∧
        (processPage H cfg (.loaded location hrefs false) u d s).visitedUrls =
          (processPage H cfg (.loaded location hrefs true) u d s).visitedUrls ∧
        (processPage H cfg (.loaded location hrefs false) u d s).urlDepthMap =
          (processPage H cfg (.loaded location hrefs true) u d s).urlDepthMap) := by
  have e0 := runVisit_quiet H cfg visit hopen hclose (initState cfg) n
  have e1 := runVisit_quiet H cfg visit hopen hclose (initState cfg) (n + 1)
  obtain ⟨h1, h2, h3, h4⟩ := failure_isolation H cfg (fun k u => (visit k u).outcome) n
  unfold initCrawl
  rw [e0, e1]
  refine ⟨rfl, h1, h2, ?_, h4⟩
  intro u rest hq hle hfail
  exact ⟨rfl, h3 u rest hq hle hfail⟩

/-- Witness of C3 as amended: five targets (the seed and its four links), every
page opened and closed without an exception, of which `/b` fails to load: the
failing iteration keeps `/c` and `/d` queued, and the loop ends with five visited
URLs and four entries in `pdfPaths`. -/
theorem page_failure_isolation_witness :
    (runVisit webHost exampleConfig fiveVisits 2 (initCrawl exampleConfig)).state.urlsToVisit =
      ["https://docs.example.com/b", "https://docs.example.com/c", "https://docs.example.com/d"] ∧
    pageFails webHost (fiveVisits 2 "https://docs.example.com/b").outcome ∧
    ["https://docs.example.com/c", "https://docs.example.com/d"] <+:
      (runVisit webHost exampleConfig fiveVisits 3 (initCrawl exampleConfig)).state.urlsToVisit ∧
    (runVisit webHost exampleConfig fiveVisits 5 (initCrawl exampleConfig)).aborted = false ∧
    (runVisit webHost exampleConfig fiveVisits 5 (initCrawl exampleConfig)).state.urlsToVisit
      = [] ∧
    (runVisit webHost exampleConfig fiveVisits 5
      (initCrawl exampleConfig)).state.visitedUrls.length = 5 ∧
    (runVisit webHost exampleConfig fiveVisits 5 (initCrawl exampleConfig)).state.failed =
      ["https://docs.example.com/b"] ∧
    (runVisit webHost exampleConfig fiveVisits 5
      (initCrawl exampleConfig)).state.pdfPaths.length = 4 :=
  ⟨by decide, trivial,
   ((page_failure_isolation webHost exampleConfig fiveVisits (fun _ _ => rfl) (fun _ _ => rfl)
      2).2.2.2.1 "https://docs.example.com/b"
      ["https://docs.example.com/c", "https://docs.example.com/d"]
      (by decide) (by decide) trivial).2.2.2.2,
   (page_failure_isolation webHost exampleConfig fiveVisits (fun _ _ => rfl) (fun _ _ => rfl)
      5).1,
   by decide, by decide, by decide,
   ((page_failure_isolation webHost exampleConfig fiveVisits (fun _ _ => rfl) (fun _ _ => rfl)
      5).2.1).trans (by decide)⟩

/-- Counterexample to C3 as stated: the seed links to `/a` and `/b`.  When loading
`/a` fails and `page.close()` then throws, or when `browser.newPage()` throws for
`/a`, the loop is left by the exception: `/b` stays in the queue and is not
processed in any later iteration. -/
theorem page_failure_isolation_counterexample :
    pageFails webHost (brokenCloseVisits 1 "https://docs.example.com/a").outcome ∧
    (runVisit webHost exampleConfig brokenCloseVisits 2 (initCrawl exampleConfig)).aborted
      = true ∧
    (runVisit webHost exampleConfig brokenCloseVisits 2
      (initCrawl exampleConfig)).state.urlsToVisit = ["https://docs.example.com/b"] ∧
    runVisit webHost exampleConfig brokenCloseVisits 9 (initCrawl exampleConfig) =
      runVisit webHost exampleConfig brokenCloseVisits 2 (initCrawl exampleConfig) ∧
    "https://docs.example.com/b" ∉
      (runVisit webHost exampleConfig brokenCloseVisits 9
        (initCrawl exampleConfig)).state.visitedUrls ∧
    (runVisit webHost exampleConfig brokenOpenVisits 2 (initCrawl exampleConfig)).aborted
      = true ∧
    (runVisit webHost exampleConfig brokenOpenVisits 9
      (initCrawl exampleConfig)).state.urlsToVisit = ["https://docs.example.com/b"] :=
  ⟨trivial, by decide, by decide, by decide, by decide, by decide, by decide⟩

/-! ## The filter -/

theorem occursIn_iff (p l : List Char) : occursIn p l = true ↔ p <:+: l := by
  induction l with
  | nil =>
    simp only [occursIn, List.isPrefixOf_iff_prefix, List.prefix_nil, List.infix_nil]
  | cons c cs ih =>
    simp only [occursIn, Bool.or_eq_true, ih, List.isPrefixOf_iff_prefix]
    exact List.infix_cons_iff.symm

theorem includes_iff (s p : String) : includes s p = true ↔ p.data <:+: s.data :=
  occursIn_iff p.data s.data

theorem endsWith_iff (s p : String) : endsWith s p = true ↔ p.data <:+ s.data := by
  simp only [endsWith, List.isPrefixOf_iff_prefix, List.reverse_prefix]

/-- Claim C4, as amended (domain scope by host name).  When `shouldCrawlUrl`
accepts a candidate, the candidate and the seed both parse and the `hostname` of
the candidate (the host without its port) equals the `hostname` of the seed; and a
candidate whose `hostname` differs from the seed's is rejected. -/
theorem domain_scope (H : Host) (cfg : Config) (url : String) :
    (shouldCrawlUrl H cfg url = true →
      ∃ urlObj startUrlObj, H.parseUrl url = some urlObj ∧
        H.parseUrl cfg.startUrl = some startUrlObj ∧
        urlObj.hostname = startUrlObj.hostname) ∧
    (∀ urlObj startUrlObj, H.parseUrl url = some urlObj →
      H.parseUrl cfg.startUrl = some startUrlObj →
      urlObj.hostname ≠ startUrlObj.hostname → shouldCrawlUrl H cfg url = false) := by
  constructor
  · intro h
    unfold shouldCrawlUrl at h
    cases hu : H.parseUrl url with
    | none => simp [hu] at h
    | some urlObj =>
      cases hs : H.parseUrl cfg.startUrl with
      | none => simp [hu, hs] at h
      | some startUrlObj =>
        by_cases hh : urlObj.hostname = startUrlObj.hostname
        · exact ⟨urlObj, startUrlObj, rfl, rfl, hh⟩
        · simp [hu, hs, hh] at h
  · intro urlObj startUrlObj hu hs hne
    unfold shouldCrawlUrl
    simp [hu, hs, hne]

/-- Witness of C4 as amended: an accepted page of the seed's host, and a rejected
page of another host. -/
theorem domain_scope_witness :
    shouldCrawlUrl webHost exampleConfig "https://docs.example.com/guide" = true ∧
    (∃ urlObj startUrlObj, webHost.parseUrl "https://docs.example.com/guide" = some urlObj ∧
      webHost.parseUrl exampleConfig.startUrl = some startUrlObj ∧
      urlObj.hostname = startUrlObj.hostname) ∧
    shouldCrawlUrl webHost exampleConfig "https://other.com/x" = false :=
  ⟨by decide,
   (domain_scope webHost exampleConfig "https://docs.example.com/guide").1 (by decide),
   (domain_scope webHost exampleConfig "https://other.com/x").2
     { protocol := "https:", hostname := "other.com", port := "", pathname := "/x",
       search := "", hash := "" }
     { protocol := "https:", hostname := "docs.example.com", port := "", pathname := "/",
       search := "", hash := "" }
     (by decide) (by decide) (by decide)⟩

/-- Counterexample to C4 as stated: a candidate on another port of the seed's host
name is accepted although its `host` differs from the seed's. -/
theorem domain_scope_counterexample :
    shouldCrawlUrl webHost exampleConfig "https://docs.example.com:8080/x" = true ∧
    (webHost.parseUrl "https://docs.example.com:8080/x").map Url.host
      = some "docs.example.com:8080" ∧
    (webHost.parseUrl exampleConfig.startUrl).map Url.host = some "docs.example.com" := by
  decide

/-- Claim C5 (exclude dominates include).  A candidate that contains one of the
exclude patterns as a substring is rejected, for every seed and every include
list. -/
theorem exclude_dominates (H : Host) (cfg : Config) (url : String)
    (h : ∃ pattern ∈ cfg.excludePatterns, pattern.data <:+: url.data) :
    shouldCrawlUrl H cfg url = false := by
  obtain ⟨pattern, hmem, hsub⟩ := h
  have hany : cfg.excludePatterns.any (fun pattern => includes url pattern) = true :=
    List.any_eq_true.mpr ⟨pattern, hmem, (includes_iff url pattern).mpr hsub⟩
  unfold shouldCrawlUrl
  cases H.parseUrl url with
  | none => rfl
  | some urlObj =>
    cases H.parseUrl cfg.startUrl with
    | none => rfl
    | some startUrlObj =>
      simp only [hany, if_true]
      split
      · rfl
      · split <;> rfl

/-- Witness of C5: the candidate `/api/internal/foo` matches the include pattern
`/api/` and the exclude pattern `/api/internal/`, and is rejected. -/
theorem exclude_dominates_witness :
    includes "https://docs.example.com/api/internal/foo" "/api/" = true ∧
    shouldCrawlUrl webHost apiConfig "https://docs.example.com/api/internal/foo" = false :=
  ⟨by decide,
   exclude_dominates webHost apiConfig "https://docs.example.com/api/internal/foo"
     ⟨"/api/internal/", by decide,
      (includes_iff "https://docs.example.com/api/internal/foo" "/api/internal/").mp (by decide)⟩⟩

/-- The extension check of line 81, as the code applies it: a candidate whose
whole URL string, lower-cased, ends with one of the non-document extensions is
rejected. -/
theorem extension_rule (H : Host) (cfg : Config) (url : String)
    (h : ∃ ext ∈ invalidExtensions, ext.data <:+ (H.toLowerCase url).data) :
    shouldCrawlUrl H cfg url = false := by
  obtain ⟨ext, hmem, hsuf⟩ := h
  have hany : invalidExtensions.any (fun ext => endsWith (H.toLowerCase url) ext) = true :=
    List.any_eq_true.mpr ⟨ext, hmem, (endsWith_iff _ ext).mpr hsuf⟩
  unfold shouldCrawlUrl
  cases H.parseUrl url with
  | none => rfl
  | some urlObj =>
    cases H.parseUrl cfg.startUrl with
    | none => rfl
    | some startUrlObj =>
      simp only [hany, if_true]
      split
      · rfl
      · split
        · rfl
        · split <;> rfl

/-- The extension check at a URL string that ends with `.PDF`. -/
theorem extension_rule_example :
    shouldCrawlUrl webHost exampleConfig "https://docs.example.com/manual.PDF" = false :=
  extension_rule webHost exampleConfig "https://docs.example.com/manual.PDF"
    ⟨".pdf", by decide,
     (endsWith_iff (webHost.toLowerCase "https://docs.example.com/manual.PDF") ".pdf").mp
       (by decide)⟩

/-- Claim C8, the code at two candidates whose path ends with a non-document
extension: the path of `/manual.pdf?download=1` is `/manual.pdf` and the path of
`/logo.png?v=3` is `/logo.png`, each followed by a query string, and
`shouldCrawlUrl` accepts both. -/
theorem extension_rule_failing_input :
    (webHost.parseUrl "https://docs.example.com/manual.pdf?download=1").map Url.pathname
      = some "/manual.pdf" ∧
    endsWith (webHost.toLowerCase "/manual.pdf") ".pdf" = true ∧
    shouldCrawlUrl webHost exampleConfig "https://docs.example.com/manual.pdf?download=1"
      = true ∧
    (webHost.parseUrl "https://docs.example.com/logo.png?v=3").map Url.pathname
      = some "/logo.png" ∧
    endsWith (webHost.toLowerCase "/logo.png") ".png" = true ∧
    shouldCrawlUrl webHost exampleConfig "https://docs.example.com/logo.png?v=3" = true := by
  decide

/-! ## Link intake and the delay -/

/-- Claim C7, the code at the scenario of the claim: from the seed
`https://docs.example.com/` with `maxDepth = 1` and the anchors `/guide`,
`/guide#anchor`, `https://other.com/x`, the first iteration queues both
`https://docs.example.com/guide` and `https://docs.example.com/guide#anchor`,
each at depth 1. -/
theorem link_intake_scenario :
    (run webHost exampleConfig scenarioBrowser 1 (initState exampleConfig)).urlsToVisit =
      ["https://docs.example.com/guide", "https://docs.example.com/guide#anchor"] ∧
    mapGet "https://docs.example.com/guide#anchor"
      (run webHost exampleConfig scenarioBrowser 1 (initState exampleConfig)).urlDepthMap
      = some 1 ∧
    (run webHost exampleConfig scenarioBrowser 3 (initState exampleConfig)).handed =
      ["https://docs.example.com/", "https://docs.example.com/guide",
       "https://docs.example.com/guide#anchor"] := by
  decide

/-- Claim C10, the code at `wait = 0`: the constructor turns a configured wait of
zero into `waitTime = 1000`, and every processed iteration is followed by a delay
of 1000 ms. -/
theorem zero_wait_delay (url : String) :
    (construct { url := url, wait := some 0 }).waitTime = 1000 ∧
    iterationDelay (construct { url := url, wait := some 0 }) = some 1000 := by
  constructor <;> rfl

/-! ## The ordering step of `mergePDFs` -/

theorem compareArtifacts_le_iff (H : Host) (a b : Artifact) :
    compareArtifacts H a b ≤ 0 ↔ depthThenCollation H a b := by
  unfold compareArtifacts depthThenCollation
  by_cases h : a.depth = b.depth
  · simp [h]
  · simp only [ne_eq, h, not_false_eq_true, if_true, false_and, or_false]
    omega

theorem pairwise_orderedInsert_of {α : Type} (r : α → α → Prop) [DecidableRel r] (a : α) :
    ∀ l : List α,
      (∀ x ∈ a :: l, ∀ y ∈ a :: l, r x y ∨ r y x) →
      (∀ x ∈ a :: l, ∀ y ∈ a :: l, ∀ z ∈ a :: l, r x y → r y z → r x z) →
      l.Pairwise r → (l.orderedInsert r a).Pairwise r := by
  intro l
  induction l with
  | nil => intro _ _ _; simp
  | cons b l ih =>
    intro htot htr hs
    have hb : b ∈ a :: b :: l := List.mem_cons_of_mem _ (List.mem_cons_self _ _)
    have ha : a ∈ a :: b :: l := List.mem_cons_self _ _
    have hl : ∀ y ∈ l, y ∈ a :: b :: l :=
      fun y hy => List.mem_cons_of_mem _ (List.mem_cons_of_mem _ hy)
    rw [List.orderedInsert]
    split
    · rename_i hab
      refine List.pairwise_cons.mpr ⟨?_, hs⟩
      intro y hy
      rcases List.mem_cons.mp hy with hy | hy
      · rw [hy]; exact hab
      · exact htr a ha b hb y (hl y hy) hab ((List.pairwise_cons.mp hs).1 y hy)
    · rename_i hab
      have hba : r b a := (htot a ha b hb).resolve_left hab
      have hsub : ∀ y ∈ a :: l, y ∈ a :: b :: l := by
        intro y hy
        rcases List.mem_cons.mp hy with hy | hy
        · rw [hy]; exact ha
        · exact hl y hy
      refine List.pairwise_cons.mpr ⟨?_, ?_⟩
      · intro y hy
        rcases List.mem_cons.mp ((List.perm_orderedInsert r a l).subset hy) with hy | hy
        · rw [hy]; exact hba
        · exact (List.pairwise_cons.mp hs).1 y hy
      · exact ih (fun x hx y hy => htot x (hsub x hx) y (hsub y hy))
          (fun x hx y hy z hz => htr x (hsub x hx) y (hsub y hy) z (hsub z hz))
          (List.pairwise_cons.mp hs).2

theorem pairwise_insertionSort_of {α : Type} (r : α → α → Prop) [DecidableRel r] :
    ∀ l : List α,
      (∀ x ∈ l, ∀ y ∈ l, r x y ∨ r y x) →
      (∀ x ∈ l, ∀ y ∈ l, ∀ z ∈ l, r x y → r y z → r x z) →
      (l.insertionSort r).Pairwise r := by
  intro l
  induction l with
  | nil => intro _ _; simp
  | cons a l ih =>
    intro htot htr
    rw [List.insertionSort]
    have hsub : ∀ y ∈ a :: l.insertionSort r, y ∈ a :: l := by
      intro y hy
      rcases List.mem_cons.mp hy with hy | hy
      · rw [hy]; exact List.mem_cons_self _ _
      · exact List.mem_cons_of_mem _ ((List.perm_insertionSort r l).subset hy)
    exact pairwise_orderedInsert_of r a _
      (fun x hx y hy => htot x (hsub x hx) y (hsub y hy))
      (fun x hx y hy z hz => htr x (hsub x hx) y (hsub y hy) z (hsub z hz))
      (ih (fun x hx y hy => htot x (List.mem_cons_of_mem _ hx) y (List.mem_cons_of_mem _ hy))
        (fun x hx y hy z hz => htr x (List.mem_cons_of_mem _ hx) y (List.mem_cons_of_mem _ hy)
          z (List.mem_cons_of_mem _ hz)))

theorem eq_of_perm_of_pairwise_of {α : Type} (r : α → α → Prop) (l l₁ l₂ : List α)
    (hanti : ∀ x ∈ l, ∀ y ∈ l, r x y → r y x → x = y)
    (h₁ : l₁.Perm l) (h₂ : l₂.Perm l) (s₁ : l₁.Pairwise r) (s₂ : l₂.Pairwise r) : l₁ = l₂ := by
  haveI : IsAntisymm α (fun x y => r x y ∧ x ∈ l ∧ y ∈ l) :=
    ⟨fun x y hxy hyx => hanti x hxy.2.1 y hxy.2.2 hxy.1 hyx.1⟩
  have t₁ : l₁.Pairwise (fun x y => r x y ∧ x ∈ l ∧ y ∈ l) :=
    s₁.imp_of_mem (fun hx hy hxy => ⟨hxy, h₁.subset hx, h₁.subset hy⟩)
  have t₂ : l₂.Pairwise (fun x y => r x y ∧ x ∈ l ∧ y ∈ l) :=
    s₂.imp_of_mem (fun hx hy hxy => ⟨hxy, h₂.subset hx, h₂.subset hy⟩)
  exact List.eq_of_perm_of_sorted (h₁.trans h₂.symm) t₁ t₂

theorem compare_total_of (H : Host) (l : List Artifact)
    (hcol : CollatesTotally H (l.map Artifact.url)) :
    ∀ x ∈ l, ∀ y ∈ l, compareArtifacts H x y ≤ 0 ∨ compareArtifacts H y x ≤ 0 := by
  intro x hx y hy
  rw [compareArtifacts_le_iff, compareArtifacts_le_iff]
  unfold depthThenCollation
  rcases Nat.lt_trichotomy x.depth y.depth with h | h | h
  · exact Or.inl (Or.inl h)
  · rcases hcol.1 x.url (List.mem_map_of_mem _ hx) y.url (List.mem_map_of_mem _ hy) with c | c
    · exact Or.inl (Or.inr ⟨h, c⟩)
    · exact Or.inr (Or.inr ⟨h.symm, c⟩)
  · exact Or.inr (Or.inl h)

theorem compare_trans_of (H : Host) (l : List Artifact)
    (hcol : CollatesTotally H (l.map Artifact.url)) :
    ∀ x ∈ l, ∀ y ∈ l, ∀ z ∈ l,
      compareArtifacts H x y ≤ 0 → compareArtifacts H y z ≤ 0 → compareArtifacts H x z ≤ 0 := by
  intro x hx y hy z hz
  rw [compareArtifacts_le_iff, compareArtifacts_le_iff, compareArtifacts_le_iff]
  unfold depthThenCollation
  rintro (h1 | ⟨e1, c1⟩) (h2 | ⟨e2, c2⟩)
  · exact Or.inl (by omega)
  · exact Or.inl (by omega)
  · exact Or.inl (by omega)
  · exact Or.inr ⟨e1.trans e2,
      hcol.2.1 x.url (List.mem_map_of_mem _ hx) y.url (List.mem_map_of_mem _ hy)
        z.url (List.mem_map_of_mem _ hz) c1 c2⟩

theorem compare_antisymm_of (H : Host) (l : List Artifact)
    (hnd : (l.map Artifact.url).Nodup)
    (hcol : CollatesTotally H (l.map Artifact.url)) :
    ∀ x ∈ l, ∀ y ∈ l, compareArtifacts H x y ≤ 0 → compareArtifacts H y x ≤ 0 → x = y := by
  intro x hx y hy
  rw [compareArtifacts_le_iff, compareArtifacts_le_iff]
  unfold depthThenCollation
  rintro (h1 | ⟨_, c1⟩) (h2 | ⟨_, c2⟩)
  · omega
  · omega
  · omega
  · exact List.inj_on_of_nodup_map hnd hx hy
      (hcol.2.2 x.url (List.mem_map_of_mem _ hx) y.url (List.mem_map_of_mem _ hy) c1 c2)

theorem collatesTotally_perm (H : Host) {l l' : List Artifact} (hp : l'.Perm l)
    (hcol : CollatesTotally H (l.map Artifact.url)) :
    CollatesTotally H (l'.map Artifact.url) := by
  have hsub : ∀ a ∈ l'.map Artifact.url, a ∈ l.map Artifact.url :=
    fun a ha => (hp.map Artifact.url).subset ha
  exact ⟨fun a ha b hb => hcol.1 a (hsub a ha) b (hsub b hb),
    fun a ha b hb c hc => hcol.2.1 a (hsub a ha) b (hsub b hb) c (hsub c hc),
    fun a ha b hb => hcol.2.2 a (hsub a ha) b (hsub b hb)⟩

theorem sortArtifacts_pairwise (H : Host) (l : List Artifact)
    (hcol : CollatesTotally H (l.map Artifact.url)) :
    (sortArtifacts H l).Pairwise (fun a b => compareArtifacts H a b ≤ 0) :=
  pairwise_insertionSort_of _ l (compare_total_of H l hcol) (compare_trans_of H l hcol)

/-- Claim C6, as amended (assembly order by depth, then by `localeCompare`).  For
a list of artifacts with pairwise distinct URLs on which `localeCompare` is a total
order, the ordering step returns a permutation of the list that is ascending in
depth and, at equal depth, ascending in URL in the order of `localeCompare`; it is
the only such permutation, and every reordering of the input gives the same
output. -/
theorem merge_order (H : Host) (l : List Artifact)
    (hnd : (l.map Artifact.url).Nodup)
    (hcol : CollatesTotally H (l.map Artifact.url)) :
    (sortArtifacts H l).Perm l ∧
    (sortArtifacts H l).Pairwise (depthThenCollation H) ∧
    (∀ l' : List Artifact, l'.Perm l → l'.Pairwise (depthThenCollation H) →
        l' = sortArtifacts H l) ∧
    (∀ l' : List Artifact, l'.Perm l → sortArtifacts H l' = sortArtifacts H l) := by
  have hperm : (sortArtifacts H l).Perm l := List.perm_insertionSort _ l
  have hsorted := sortArtifacts_pairwise H l hcol
  have hanti := compare_antisymm_of H l hnd hcol
  refine ⟨hperm, ?_, ?_, ?_⟩
  · exact hsorted.imp (fun h => (compareArtifacts_le_iff H _ _).mp h)
  · intro l' hp hs
    exact eq_of_perm_of_pairwise_of _ l l' (sortArtifacts H l) hanti hp hperm
      (hs.imp (fun h => (compareArtifacts_le_iff H _ _).mpr h)) hsorted
  · intro l' hp
    exact eq_of_perm_of_pairwise_of _ l (sortArtifacts H l') (sortArtifacts H l) hanti
      ((List.perm_insertionSort _ l').trans hp) hperm
      (sortArtifacts_pairwise H l' (collatesTotally_perm H hp hcol)) hsorted

/-- Witness of C6 as amended: depths `[0, 1, 1]` with the URLs `/`, `/c`, `/b` of
the example site give the order `/`, `/b`, `/c`. -/
theorem merge_order_witness :
    sortArtifacts webHost
        [artifactAt "https://docs.example.com/" 0, artifactAt "https://docs.example.com/c" 1,
         artifactAt "https://docs.example.com/b" 1]
      = [artifactAt "https://docs.example.com/" 0, artifactAt "https://docs.example.com/b" 1,
         artifactAt "https://docs.example.com/c" 1] ∧
    sortArtifacts webHost
        [artifactAt "https://docs.example.com/b" 1, artifactAt "https://docs.example.com/" 0,
         artifactAt "https://docs.example.com/c" 1]
      = sortArtifacts webHost
        [artifactAt "https://docs.example.com/" 0, artifactAt "https://docs.example.com/c" 1,
         artifactAt "https://docs.example.com/b" 1] :=
  ⟨by decide,
   (merge_order webHost
      [artifactAt "https://docs.example.com/" 0, artifactAt "https://docs.example.com/c" 1,
       artifactAt "https://docs.example.com/b" 1]
      (by decide) (by decide)).2.2.2
      [artifactAt "https://docs.example.com/b" 1, artifactAt "https://docs.example.com/" 0,
       artifactAt "https://docs.example.com/c" 1]
      (by decide)⟩

/-- Counterexample to C6 as stated: two artifacts at depth 1 with the distinct
URLs `/B` and `/a`.  The collation of `localeCompare` puts `/a` first, while the
lexicographic order of strings puts `/B` first, so the output of the ordering step
is not ascending in the order of the claim. -/
theorem merge_order_counterexample :
    ([artifactAt "https://docs.example.com/B" 1,
      artifactAt "https://docs.example.com/a" 1].map Artifact.url).Nodup ∧
    sortArtifacts webHost
        [artifactAt "https://docs.example.com/B" 1, artifactAt "https://docs.example.com/a" 1]
      = [artifactAt "https://docs.example.com/a" 1, artifactAt "https://docs.example.com/B" 1] ∧
    ¬ (sortArtifacts webHost
        [artifactAt "https://docs.example.com/B" 1,
         artifactAt "https://docs.example.com/a" 1]).Pairwise depthThenLexUrl := by
  refine ⟨by decide, by decide, ?_⟩
  unfold depthThenLexUrl
  decide

/-! ## File names -/

theorem segments_ne_nil (l : List Char) : segments l ≠ [] := by
  cases l with
  | nil => simp [segments]
  | cons c cs =>
    simp only [segments]
    split
    · split <;> simp
    · simp

theorem segments_cons_of_safe {c : Char} {cs p : List Char} {ps : List (List Char)}
    (hc : isSafeChar c = true) (hp : segments cs = p :: ps) :
    segments (c :: cs) = (c :: p) :: ps := by
  simp [segments, hc, hp]

theorem segments_cons_of_sep {c : Char} (cs : List Char) (hc : ¬ isSafeChar c = true) :
    segments (c :: cs) = [] :: segments cs := by
  simp [segments, hc]

theorem underscore_not_safe : ¬ isSafeChar '_' = true := by decide

theorem segments_replaceUnsafe (l : List Char) : segments (replaceUnsafe l) = segments l := by
  induction l with
  | nil => rfl
  | cons c cs ih =>
    obtain ⟨p, ps, hp⟩ := List.exists_cons_of_ne_nil (segments_ne_nil cs)
    by_cases hc : isSafeChar c = true
    · have hr : replaceUnsafe (c :: cs) = c :: replaceUnsafe cs := by
        simp [replaceUnsafe, hc]
      rw [hr, segments_cons_of_safe hc (ih.trans hp), segments_cons_of_safe hc hp]
    · have hr : replaceUnsafe (c :: cs) = '_' :: replaceUnsafe cs := by
        simp [replaceUnsafe, hc]
      rw [hr, segments_cons_of_sep _ underscore_not_safe, segments_cons_of_sep _ hc, ih]

theorem segments_collapse (m : List Char) :
    (segments (collapse m)).head? = (segments m).head? ∧
    ((segments (collapse m)).tail).filter (fun piece => piece ≠ []) =
      ((segments m).tail).filter (fun piece => piece ≠ []) := by
  induction m with
  | nil => exact ⟨rfl, rfl⟩
  | cons c rest ih =>
    obtain ⟨p, ps, hp⟩ := List.exists_cons_of_ne_nil (segments_ne_nil rest)
    obtain ⟨q, qs, hq⟩ := List.exists_cons_of_ne_nil (segments_ne_nil (collapse rest))
    rw [hp, hq] at ih
    obtain ⟨ih1, ih2⟩ := ih
    simp only [List.head?_cons, Option.some.injEq, List.tail_cons] at ih1 ih2
    by_cases hdrop : c = '_' ∧ rest.head? = some '_'
    · have hc : collapse (c :: rest) = collapse rest := by simp [collapse, hdrop]
      obtain ⟨hcu, hhead⟩ := hdrop
      cases rest with
      | nil => simp at hhead
      | cons d r =>
        simp only [List.head?_cons, Option.some.injEq] at hhead
        rw [hhead, segments_cons_of_sep _ underscore_not_safe] at hp
        rw [hc, hq, hcu, segments_cons_of_sep _ underscore_not_safe, hhead,
          segments_cons_of_sep _ underscore_not_safe]
        simp only [List.cons.injEq] at hp
        obtain ⟨hp1, hp2⟩ := hp
        refine ⟨by simp [ih1, ← hp1], ?_⟩
        simp only [List.tail_cons]
        rw [ih2, ← hp2]
        simp
    · have hc : collapse (c :: rest) = c :: collapse rest := by simp [collapse, hdrop]
      rw [hc]
      by_cases hs : isSafeChar c = true
      · rw [segments_cons_of_safe hs hq, segments_cons_of_safe hs hp]
        simp only [List.head?_cons, List.tail_cons, ih1, ih2, and_self]
      · rw [segments_cons_of_sep _ hs, segments_cons_of_sep _ hs, hq, hp]
        simp only [List.head?_cons, List.tail_cons, true_and]
        rw [List.filter_cons, List.filter_cons, ih1, ih2]

theorem safeRuns_collapse (m : List Char) : safeRuns (collapse m) = safeRuns m := by
  obtain ⟨p, ps, hp⟩ := List.exists_cons_of_ne_nil (segments_ne_nil m)
  obtain ⟨q, qs, hq⟩ := List.exists_cons_of_ne_nil (segments_ne_nil (collapse m))
  have h := segments_collapse m
  rw [hp, hq] at h
  simp only [List.head?_cons, Option.some.injEq, List.tail_cons] at h
  unfold safeRuns
  rw [hp, hq, List.filter_cons, List.filter_cons, h.1, h.2]

theorem safeRuns_trimLead (m : List Char) : safeRuns (trimLead m) = safeRuns m := by
  cases m with
  | nil => rfl
  | cons c rest =>
    by_cases hc : c = '_'
    · simp [trimLead, hc, safeRuns, segments_cons_of_sep _ underscore_not_safe]
    · simp [trimLead, hc]

theorem segments_append_underscore (m : List Char) :
    segments (m ++ ['_']) = segments m ++ [[]] := by
  induction m with
  | nil => rfl
  | cons c cs ih =>
    obtain ⟨p, ps, hp⟩ := List.exists_cons_of_ne_nil (segments_ne_nil cs)
    by_cases hs : isSafeChar c = true
    · rw [List.cons_append, segments_cons_of_safe hs (ih.trans (by rw [hp, List.cons_append])),
        segments_cons_of_safe hs hp, List.cons_append]
    · rw [List.cons_append, segments_cons_of_sep _ hs, segments_cons_of_sep _ hs, ih,
        List.cons_append]

theorem trimTrail_concat (l : List Char) (b : Char) :
    trimTrail (l ++ [b]) = if b = '_' then l else l ++ [b] := by
  by_cases hb : b = '_'
  · simp [trimTrail, trimLead, hb]
  · simp [trimTrail, trimLead, hb]

theorem safeRuns_trimTrail (m : List Char) : safeRuns (trimTrail m) = safeRuns m := by
  rcases List.eq_nil_or_concat m with rfl | ⟨l, b, hm⟩
  · rfl
  · rw [List.concat_eq_append] at hm
    subst hm
    rw [trimTrail_concat]
    by_cases hb : b = '_'
    · rw [if_pos hb, hb]
      unfold safeRuns
      rw [segments_append_underscore, List.filter_append]
      simp
    · rw [if_neg hb]

theorem safeRuns_sanitize (url : String) :
    safeRuns (sanitize url) = safeRuns (dropScheme url.data) := by
  unfold sanitize
  rw [safeRuns_trimTrail, safeRuns_trimLead, safeRuns_collapse]
  unfold safeRuns
  rw [segments_replaceUnsafe]

theorem fileName_of_short (url : String) (h : (sanitize url).length ≤ maxLength) :
    urlToFileName url = String.mk (sanitize url) ++ ".pdf" := by
  unfold urlToFileName
  simp only
  rw [if_neg (by omega)]

theorem mk_append_pdf_inj {a b : List Char}
    (h : String.mk a ++ ".pdf" = String.mk b ++ ".pdf") : a = b := by
  have hd := congrArg String.data h
  simp only [String.data_append] at hd
  exact List.append_cancel_right hd

theorem joinRuns_cons (r : List Char) (rs : List (List Char)) :
    joinRuns (r :: rs) = r ++ (if rs = [] then [] else '_' :: joinRuns rs) := by
  cases rs with
  | nil => simp [joinRuns]
  | cons r' rs => simp [joinRuns]

theorem collapse_eq_nil (m : List Char) : collapse m = [] ↔ m = [] := by
  induction m with
  | nil => simp [collapse]
  | cons c rest ih =>
    simp only [collapse]
    split
    · rename_i h
      rw [ih]
      constructor
      · intro hr
        rw [hr] at h
        simp at h
      · intro hr
        simp at hr
    · simp

theorem trimTrail_cons (c : Char) (x : List Char) (hx : x ≠ []) :
    trimTrail (c :: x) = c :: trimTrail x := by
  rcases List.eq_nil_or_concat x with rfl | ⟨l, b, hm⟩
  · exact absurd rfl hx
  · rw [List.concat_eq_append] at hm
    subst hm
    rw [← List.cons_append, trimTrail_concat, trimTrail_concat]
    split <;> rfl

theorem trimLead_cons (c : Char) (rest : List Char) :
    trimLead (c :: rest) = if c = '_' then rest else c :: rest := rfl

theorem trimTrail_cons_concat (c : Char) (l : List Char) (b : Char) :
    trimTrail (c :: (l ++ [b])) = if b = '_' then c :: l else c :: (l ++ [b]) := by
  rw [← List.cons_append, trimTrail_concat]

theorem trim_comm (y : List Char) : trimTrail (trimLead y) = trimLead (trimTrail y) := by
  cases y with
  | nil => rfl
  | cons c r =>
    rcases List.eq_nil_or_concat r with rfl | ⟨l, b, hm⟩
    · by_cases hc : c = '_'
      · simp [trimTrail, trimLead, hc]
      · simp [trimTrail, trimLead, hc]
    · rw [List.concat_eq_append] at hm
      subst hm
      rw [trimTrail_cons_concat, trimLead_cons]
      by_cases hc : c = '_'
      · by_cases hb : b = '_'
        · rw [if_pos hc, if_pos hb, trimTrail_concat, if_pos hb, trimLead_cons, if_pos hc]
        · rw [if_pos hc, if_neg hb, trimTrail_concat, if_neg hb, trimLead_cons, if_pos hc]
      · by_cases hb : b = '_'
        · rw [if_neg hc, if_pos hb, trimTrail_cons_concat, if_pos hb, trimLead_cons, if_neg hc]
        · rw [if_neg hc, if_neg hb, trimTrail_cons_concat, if_neg hb, trimLead_cons, if_neg hc]

theorem safeRuns_cons_sep (rest : List Char) : safeRuns ('_' :: rest) = safeRuns rest := by
  simp [safeRuns, segments_cons_of_sep _ underscore_not_safe]

theorem safeRuns_cons_safe {c : Char} {rest p : List Char} {ps : List (List Char)}
    (hc : isSafeChar c = true) (hp : segments rest = p :: ps) :
    safeRuns (c :: rest) = (c :: p) :: ps.filter (fun piece => piece ≠ []) := by
  simp [safeRuns, segments_cons_of_safe hc hp]

theorem safe_ne_underscore {c : Char} (hc : isSafeChar c = true) : c ≠ '_' := by
  intro h
  rw [h] at hc
  exact underscore_not_safe hc

theorem safeRuns_ne_nil_of_safe {c : Char} (rest : List Char) (hc : isSafeChar c = true) :
    safeRuns (c :: rest) ≠ [] := by
  obtain ⟨p, ps, hp⟩ := List.exists_cons_of_ne_nil (segments_ne_nil rest)
  rw [safeRuns_cons_safe hc hp]
  exact List.cons_ne_nil _ _

theorem collapse_cons_keep (c : Char) (rest : List Char)
    (h : ¬ (c = '_' ∧ rest.head? = some '_')) : collapse (c :: rest) = c :: collapse rest := by
  simp only [collapse]
  rw [if_neg h]

theorem trimTrail_collapse (m : List Char) :
    (∀ c ∈ m, isSafeChar c = true ∨ c = '_') →
    trimTrail (collapse m) =
      (if m.head? = some '_' ∧ safeRuns m ≠ [] then ['_'] else []) ++ joinRuns (safeRuns m) := by
  induction m with
  | nil => intro _; rfl
  | cons c rest ih =>
    intro hm
    have hrest : ∀ x ∈ rest, isSafeChar x = true ∨ x = '_' :=
      fun x hx => hm x (List.mem_cons_of_mem _ hx)
    have IH := ih hrest
    by_cases hs : isSafeChar c = true
    · have hcu : c ≠ '_' := safe_ne_underscore hs
      have hhead : ¬ ((c :: rest).head? = some '_' ∧ safeRuns (c :: rest) ≠ []) := by
        simp [hcu]
      rw [if_neg hhead, List.nil_append, collapse_cons_keep c rest (fun h => hcu h.1)]
      cases rest with
      | nil =>
        have h1 : safeRuns [c] = [[c]] := by simp [safeRuns, segments, hs]
        rw [h1]
        simp [collapse, trimTrail, trimLead, hcu, joinRuns]
      | cons d r =>
        have hne : collapse (d :: r) ≠ [] := fun h => by
          have := (collapse_eq_nil (d :: r)).mp h
          exact List.cons_ne_nil _ _ this
        rw [trimTrail_cons c _ hne, IH]
        obtain ⟨p, ps, hp⟩ := List.exists_cons_of_ne_nil (segments_ne_nil (d :: r))
        rw [safeRuns_cons_safe hs hp]
        by_cases hd : isSafeChar d = true
        · have hdu : d ≠ '_' := safe_ne_underscore hd
          obtain ⟨p', ps', hp'⟩ := List.exists_cons_of_ne_nil (segments_ne_nil r)
          have hp2 := segments_cons_of_safe hd hp'
          rw [hp2] at hp
          simp only [List.cons.injEq] at hp
          obtain ⟨hp1, hp3⟩ := hp
          rw [safeRuns_cons_safe hd hp', ← hp1, ← hp3]
          have hh : ¬ ((d :: r).head? = some '_' ∧
              (d :: p') :: List.filter (fun piece => decide (piece ≠ [])) ps' ≠ []) := by
            simp [hdu]
          rw [if_neg hh, List.nil_append, joinRuns_cons, joinRuns_cons]
          rfl
        · have hdu : d = '_' := (hrest d (List.mem_cons_self _ _)).resolve_left hd
          subst hdu
          rw [segments_cons_of_sep _ underscore_not_safe] at hp
          simp only [List.cons.injEq] at hp
          obtain ⟨hp1, hp3⟩ := hp
          rw [safeRuns_cons_sep, ← hp1, joinRuns_cons]
          have hF : safeRuns r = List.filter (fun piece => decide (piece ≠ [])) ps := by
            unfold safeRuns
            rw [hp3]
          rw [← hF]
          by_cases hn : safeRuns r = []
          · simp [hn, joinRuns]
          · simp [hn]
    · have hcu : c = '_' := (hm c (List.mem_cons_self _ _)).resolve_left hs
      subst hcu
      rw [safeRuns_cons_sep]
      cases rest with
      | nil => rfl
      | cons d r =>
        by_cases hd : isSafeChar d = true
        · have hdu : d ≠ '_' := safe_ne_underscore hd
          have hne : collapse (d :: r) ≠ [] := fun h => by
            have := (collapse_eq_nil (d :: r)).mp h
            exact List.cons_ne_nil _ _ this
          rw [collapse_cons_keep '_' (d :: r) (by simp [hdu]), trimTrail_cons _ _ hne, IH]
          have h1 : ¬ ((d :: r).head? = some '_' ∧ safeRuns (d :: r) ≠ []) := by
            simp [hdu]
          have h2 : ('_' :: d :: r).head? = some '_' ∧ safeRuns (d :: r) ≠ [] :=
            ⟨rfl, safeRuns_ne_nil_of_safe r hd⟩
          rw [if_neg h1, if_pos h2]
          rfl
        · have hdu : d = '_' := (hrest d (List.mem_cons_self _ _)).resolve_left hd
          subst hdu
          have hc : collapse ('_' :: '_' :: r) = collapse ('_' :: r) := by
            simp [collapse]
          rw [hc, IH]
          simp

theorem replaceUnsafe_clean (l : List Char) :
    ∀ c ∈ replaceUnsafe l, isSafeChar c = true ∨ c = '_' := by
  intro c hc
  unfold replaceUnsafe at hc
  obtain ⟨x, _, hx⟩ := List.mem_map.mp hc
  by_cases hs : isSafeChar x = true
  · rw [if_pos hs] at hx
    exact Or.inl (hx ▸ hs)
  · rw [if_neg hs] at hx
    exact Or.inr hx.symm

theorem trimLead_joinRuns (m : List Char) (hm : ∀ c ∈ m, isSafeChar c = true ∨ c = '_') :
    trimLead ((if m.head? = some '_' ∧ safeRuns m ≠ [] then ['_'] else []) ++
      joinRuns (safeRuns m)) = joinRuns (safeRuns m) := by
  by_cases h : m.head? = some '_' ∧ safeRuns m ≠ []
  · rw [if_pos h]
    rfl
  · rw [if_neg h, List.nil_append]
    cases m with
    | nil => rfl
    | cons c rest =>
      by_cases hs : isSafeChar c = true
      · obtain ⟨p, ps, hp⟩ := List.exists_cons_of_ne_nil (segments_ne_nil rest)
        rw [safeRuns_cons_safe hs hp, joinRuns_cons, List.cons_append, trimLead_cons,
          if_neg (safe_ne_underscore hs)]
      · have hcu : c = '_' := (hm c (List.mem_cons_self _ _)).resolve_left hs
        subst hcu
        have hn : safeRuns ('_' :: rest) = [] := by
          by_contra hne
          exact h ⟨rfl, hne⟩
        rw [hn]
        rfl

theorem sanitize_eq_joinRuns (url : String) :
    sanitize url = joinRuns (safeRuns (dropScheme url.data)) := by
  have hr : safeRuns (replaceUnsafe (dropScheme url.data)) = safeRuns (dropScheme url.data) := by
    unfold safeRuns
    rw [segments_replaceUnsafe]
  unfold sanitize
  rw [trim_comm, trimTrail_collapse _ (replaceUnsafe_clean _),
    trimLead_joinRuns _ (replaceUnsafe_clean _), hr]

/-- Claim C9, as amended (file names are determined by the runs).  Two URLs
whose sanitized names are not truncated get the same file name exactly when their
sequences of maximal runs of letters, digits and hyphens (taken after a leading
`http://` or `https://` is removed) are equal; so two such URLs that differ in
that sequence get two different file names. -/
theorem filename_unique (u v : String)
    (hu : (sanitize u).length ≤ maxLength) (hv : (sanitize v).length ≤ maxLength) :
    urlToFileName u = urlToFileName v ↔
      safeRuns (dropScheme u.data) = safeRuns (dropScheme v.data) := by
  rw [fileName_of_short u hu, fileName_of_short v hv]
  constructor
  · intro heq
    rw [← safeRuns_sanitize u, ← safeRuns_sanitize v, mk_append_pdf_inj heq]
  · intro heq
    rw [sanitize_eq_joinRuns u, sanitize_eq_joinRuns v, heq]

/-- Witness of C9 as amended: `/guide` and `/guides` have different runs and are
given different file names. -/
theorem filename_unique_witness :
    safeRuns (dropScheme "https://docs.example.com/guide".data) ≠
      safeRuns (dropScheme "https://docs.example.com/guides".data) ∧
    urlToFileName "https://docs.example.com/guide" ≠
      urlToFileName "https://docs.example.com/guides" :=
  ⟨by decide, fun h =>
    absurd ((filename_unique "https://docs.example.com/guide" "https://docs.example.com/guides"
      (by decide) (by decide)).mp h) (by decide)⟩

/-- Counterexample to C9 as stated: the distinct URLs `/guide` and `/guide/` have
sanitized names of 22 characters and the same file name, and a crawl that finds
both records two artifacts under one path. -/
theorem filename_unique_counterexample :
    "https://docs.example.com/guide" ≠ "https://docs.example.com/guide/" ∧
    (sanitize "https://docs.example.com/guide").length = 22 ∧
    (sanitize "https://docs.example.com/guide/").length = 22 ∧
    urlToFileName "https://docs.example.com/guide" =
      urlToFileName "https://docs.example.com/guide/" ∧
    (run webHost exampleConfig slashBrowser 3 (initState exampleConfig)).pdfPaths =
      [{ url := "https://docs.example.com/", path := "temp-pdfs/docs_example_com.pdf",
         depth := 0 },
       { url := "https://docs.example.com/guide",
         path := "temp-pdfs/docs_example_com_guide.pdf", depth := 1 },
       { url := "https://docs.example.com/guide/",
         path := "temp-pdfs/docs_example_com_guide.pdf", depth := 1 }] := by
  decide

/-! ## Termination of the loop -/

theorem grows_refl (d : Nat) (s : State) : Grows d s s :=
  ⟨[], (List.append_nil _).symm, fun _ _ => rfl, fun _ hk => absurd hk (List.not_mem_nil _)⟩

theorem grows_trans {d : Nat} {a b c : State} (h1 : Grows d a b) (h2 : Grows d b c) :
    Grows d a c := by
  obtain ⟨l1, q1, m1, n1⟩ := h1
  obtain ⟨l2, q2, m2, n2⟩ := h2
  refine ⟨l1 ++ l2, by rw [q2, q1, List.append_assoc], ?_, ?_⟩
  · intro k hk
    rw [m2 k (by rw [q1]; exact List.mem_append_left _ hk), m1 k hk]
  · intro k hk
    rcases List.mem_append.mp hk with hk | hk
    · rw [m2 k (by rw [q1]; exact List.mem_append_right _ hk), n1 k hk]
    · exact n2 k hk

theorem addLink_grows (H : Host) (cfg : Config) (d : Nat) (s : State) (link : String) :
    Grows d s (addLink H cfg d s link) := by
  unfold addLink
  split
  · rename_i h
    refine ⟨[link], rfl, ?_, ?_⟩
    · intro k hk
      exact mapGet_mapSet_ne link k (d + 1) _ (fun h' => h.2.1 (h' ▸ hk))
    · intro k hk
      rw [List.mem_singleton] at hk
      rw [hk]
      exact mapGet_mapSet_self _ _ _
  · exact grows_refl d s

theorem foldl_addLink_grows (H : Host) (cfg : Config) (d : Nat) (links : List String) :
    ∀ s : State, Grows d s (links.foldl (addLink H cfg d) s) := by
  induction links with
  | nil => intro s; exact grows_refl d s
  | cons l rest ih =>
    intro s
    exact grows_trans (addLink_grows H cfg d s l) (ih _)

theorem processPage_grows (H : Host) (cfg : Config) (o : PageOutcome) (u : String) (d : Nat)
    (s : State) : Grows d s (processPage H cfg o u d s) := by
  cases o with
  | navFailed => exact grows_refl d s
  | loaded location hrefs captured =>
    cases hx : extractLinks H location hrefs with
    | none =>
      simp only [processPage, hx]
      exact grows_refl d s
    | some links =>
      have hg := foldl_addLink_grows H cfg d links s
      cases captured with
      | true =>
        simp only [processPage, hx, if_true]
        exact hg
      | false =>
        simp only [processPage, hx]
        exact hg

theorem levelsLeft_succ_lt (cfg : Config) (d : Nat) (h : ¬ ((d : Int) > cfg.maxDepth)) :
    levelsLeft cfg (d + 1) < levelsLeft cfg d := by
  unfold levelsLeft
  omega

theorem queueLevels_cons (cfg : Config) (s : State) (u : String) (rest : List String)
    (hq : s.urlsToVisit = u :: rest) :
    queueLevels cfg s =
      levelsLeft cfg (depthOf s u) ::ₘ
        ((rest.map (fun k => levelsLeft cfg (depthOf s k)) : List Nat) : Multiset Nat) := by
  unfold queueLevels
  rw [hq]
  rfl

theorem step_cutExpand (H : Host) (cfg : Config) (page : String → PageOutcome) (s : State)
    (u : String) (rest : List String) (hq : s.urlsToVisit = u :: rest) :
    Relation.CutExpand (fun a b : Nat => a < b) (queueLevels cfg (step H cfg page s))
      (queueLevels cfg s) := by
  have hdrop : Relation.CutExpand (fun a b : Nat => a < b)
      (queueLevels cfg { s with urlsToVisit := rest }) (queueLevels cfg s) := by
    refine ⟨0, levelsLeft cfg (depthOf s u), fun a ha => absurd ha (Multiset.not_mem_zero a), ?_⟩
    rw [queueLevels_cons cfg s u rest hq, add_zero]
    exact add_comm _ _
  by_cases hvis : u ∈ s.visitedUrls
  · have hstep : step H cfg page s = { s with urlsToVisit := rest } := by
      unfold step
      rw [hq]
      simp only
      rw [if_pos hvis]
    rw [hstep]
    exact hdrop
  · by_cases hgt : ((depthOf s u : Nat) : Int) > cfg.maxDepth
    · have hstep : step H cfg page s = { s with urlsToVisit := rest } := by
        unfold step
        rw [hq]
        simp only
        rw [if_neg hvis]
        exact if_pos hgt
      rw [hstep]
      exact hdrop
    · have hstep : step H cfg page s =
          processPage H cfg (page u) u (depthOf s u)
            { s with urlsToVisit := rest, visitedUrls := s.visitedUrls ++ [u],
                     handed := s.handed ++ [u] } := by
        unfold step
        rw [hq]
        simp only
        rw [if_neg hvis]
        exact if_neg hgt
      obtain ⟨added, q, m, n⟩ := processPage_grows H cfg (page u) u (depthOf s u)
        { s with urlsToVisit := rest, visitedUrls := s.visitedUrls ++ [u],
                 handed := s.handed ++ [u] }
      rw [← hstep] at q m n
      simp only at q m n
      have hrest : rest.map (fun k => levelsLeft cfg (depthOf (step H cfg page s) k)) =
          rest.map (fun k => levelsLeft cfg (depthOf s k)) := by
        apply List.map_congr_left
        intro k hk
        unfold depthOf
        rw [m k hk]
      refine ⟨((added.map (fun k => levelsLeft cfg (depthOf (step H cfg page s) k)) : List Nat) :
          Multiset Nat), levelsLeft cfg (depthOf s u), ?_, ?_⟩
      · intro a ha
        rw [Multiset.mem_coe, List.mem_map] at ha
        obtain ⟨k, hk, hka⟩ := ha
        rw [← hka]
        unfold depthOf
        rw [n k hk]
        exact levelsLeft_succ_lt cfg _ hgt
      · rw [queueLevels_cons cfg s u rest hq]
        unfold queueLevels
        rw [q, List.map_append, hrest, ← Multiset.coe_add, Multiset.cons_add,
          ← Multiset.singleton_add, add_comm]

theorem run_shift (H : Host) (cfg : Config) (browser : Nat → String → PageOutcome) (n : Nat)
    (s : State) :
    run H cfg browser (n + 1) s =
      run H cfg (fun i => browser (i + 1)) n (step H cfg (browser 0) s) := by
  induction n with
  | zero => rfl
  | succ n ih =>
    show step H cfg (browser (n + 1)) (run H cfg browser (n + 1) s) = _
    rw [ih]
    rfl

theorem terminates_from (H : Host) (cfg : Config) :
    ∀ (M : Multiset Nat) (s : State), queueLevels cfg s = M →
      ∀ browser : Nat → String → PageOutcome, ∃ n, (run H cfg browser n s).urlsToVisit = [] := by
  have wf : WellFounded (Relation.CutExpand (fun a b : Nat => a < b)) :=
    WellFounded.cutExpand wellFounded_lt
  intro M
  induction M using wf.induction with
  | h M ih =>
    intro s hs browser
    cases hq : s.urlsToVisit with
    | nil => exact ⟨0, hq⟩
    | cons u rest =>
      have hc := step_cutExpand H cfg (browser 0) s u rest hq
      rw [hs] at hc
      obtain ⟨n, hn⟩ := ih _ hc (step H cfg (browser 0) s) rfl (fun i => browser (i + 1))
      exact ⟨n + 1, by rw [run_shift]; exact hn⟩

theorem step_of_empty (H : Host) (cfg : Config) (page : String → PageOutcome) (s : State)
    (h : s.urlsToVisit = []) : step H cfg page s = s := by
  unfold step
  rw [h]

theorem run_stable (H : Host) (cfg : Config) (browser : Nat → String → PageOutcome) (s : State)
    (n : Nat) (h : (run H cfg browser n s).urlsToVisit = []) :
    ∀ m, n ≤ m → run H cfg browser m s = run H cfg browser n s := by
  intro m hm
  induction m, hm using Nat.le_induction with
  | base => rfl
  | succ m _ ih =>
    show step H cfg (browser m) (run H cfg browser m s) = _
    rw [ih]
    exact step_of_empty H cfg (browser m) _ h

/-- Claim C11 (termination).  For every configuration, hence for every natural
number `maxDepth`, every seed, and every browser behaviour (each page gives a
finite list of links or fails, and the pages may link to ever new URLs), the loop
started from the state left by `init` reaches an empty queue after finitely many
iterations, and stays in that state. -/
theorem crawl_terminates (H : Host) (cfg : Config) (browser : Nat → String → PageOutcome) :
    ∃ n, (run H cfg browser n (initState cfg)).urlsToVisit = [] ∧
      ∀ m, n ≤ m →
        run H cfg browser m (initState cfg) = run H cfg browser n (initState cfg) := by
  obtain ⟨n, hn⟩ := terminates_from H cfg _ (initState cfg) rfl browser
  exact ⟨n, hn, run_stable H cfg browser (initState cfg) n hn⟩

/-- The loop on an unbounded site with `maxDepth = 1`: the seed and its two links
are visited, their four links are dropped, and the queue is empty after seven
iterations and not before. -/
theorem endless_site_example :
    (run webHost exampleConfig endlessBrowser 7 (initState exampleConfig)).urlsToVisit = [] ∧
    (run webHost exampleConfig endlessBrowser 6 (initState exampleConfig)).urlsToVisit ≠ [] ∧
    (run webHost exampleConfig endlessBrowser 7 (initState exampleConfig)).visitedUrls =
      ["https://docs.example.com/", "https://docs.example.com/a/",
       "https://docs.example.com/b/"] := by
  decide

end DocsCrawler
